import Mathlib

/-!
# GLSLExtension: the shader-source preprocessor of `src/coders/GLSLExtension.cpp`

A shallow embedding of the `GLSLExtension` class and of the helpers it calls,
followed by the properties of `GLSLExtension::process`.

* A `std::string` is a `List Char` (one `Char` per `char`).
* `uint linenum` is a natural number reduced modulo `2^32` after each `++`.
* An exception is a value of `Error`; the constructor records the `throw`
  site and `Error.what` rebuilds the message text.
* The `std::stringstream ss` of `process` is the list of the writes made to it
  (`Piece`); `ss.str()` is `str`, the concatenation of their texts.
* The file system and the resource resolver are parameters (`Disk`, `ResPaths`).
-/

set_option autoImplicit false

/-- A `std::string`: the sequence of its characters. -/
abbrev Str := List Char

/-- The number of values of `uint`, the type of `linenum`: `typedefs.hpp` (not part of the
sources at hand) declares it as `unsigned int`, 32 bits wide; `linenum++` wraps at this bound. -/
def UINT_MOD : Nat := 4294967296

/-! ## Standard-library operations used by the source -/

namespace std

/-- `s.substr(pos, count)`: at most `count` characters starting at index `pos`
(every call in the source has `pos ≤ s.length()`, so it never throws). -/
def substr (s : Str) (pos count : Nat) : Str := (s.drop pos).take count

/-- `s.substr(pos)`: the characters from index `pos` to the end. -/
def substr_from (s : Str) (pos : Nat) : Str := s.drop pos

/-- `s.find(c, pos)`: the index of the first `c` at or after `pos`; `none` is `npos`. -/
def find_char (s : Str) (c : Char) (pos : Nat) : Option Nat :=
  if (s.drop pos).indexOf c < (s.drop pos).length then some (pos + (s.drop pos).indexOf c)
  else none

/-- `s.find(pat) != std::string::npos`: `pat` occurs in `s` as a substring. -/
def contains (s pat : Str) : Bool :=
  match s with
  | [] => pat.isEmpty
  | c :: cs => pat.isPrefixOf (c :: cs) || contains cs pat

/-- `std::to_string(n)` and `ss << n` for an unsigned `n`: the decimal digits. -/
def to_string (n : Nat) : Str := Nat.toDigits 10 n

/-- `std::isspace` in the "C" locale. -/
def isspace (c : Char) : Bool :=
  c = ' ' || c = '\t' || c = '\n' || c = '\x0b' || c = '\x0c' || c = '\r'

end std

/-! ## `util::trim` -/

namespace util

/-- Modelled from the spec: `util::ltrim` lives in `util/stringutil.hpp`, which is not part of
the sources at hand; the spec says the directive text has its "surrounding whitespace" stripped.
This removes the leading whitespace. -/
def ltrim (s : Str) : Str := s.dropWhile std.isspace

/-- Modelled from the spec: `util::rtrim` (`util/stringutil.hpp`, absent): removes the trailing
whitespace. -/
def rtrim (s : Str) : Str := (s.reverse.dropWhile std.isspace).reverse

/-- Modelled from the spec: `util::trim` (`util/stringutil.hpp`, absent): "strip ... surrounding
whitespace", whitespace removed at both ends. -/
def trim (s : Str) : Str := ltrim (rtrim s)

end util

/-! ## Exceptions -/

/-- The exceptions `process` can raise. All are `std::runtime_error` in the source; the
constructor names the `throw` statement and keeps its arguments. -/
inductive Error where
  /-- Built by `parsing_error(file, linenum, message)`. -/
  | parsing (file : Str) (linenum : Nat) (message : Str)
  /-- Thrown by `files::read_string` when the file cannot be opened. -/
  | load (filename : Str)
  /-- Raised by the resource resolver when it cannot produce a path. -/
  | resolver (message : Str)
  /-- Thrown by `getHeader` for a name that is not in `headers`. -/
  | no_header (name : Str)
  deriving DecidableEq, Repr

/-- The text returned by `what()`. -/
def Error.what : Error → Str
  | .parsing file linenum message =>
      "file ".toList ++ file ++ ": ".toList ++ message ++ " at line ".toList ++ std.to_string linenum
  | .load filename => "could not to load file \x27".toList ++ filename ++ "\x27".toList
  | .resolver message => message
  | .no_header name => "no header \x27".toList ++ name ++ "\x27 loaded".toList

/-- The function `parsing_error` of the source (lines 66-72). -/
def parsing_error (file : Str) (linenum : Nat) (message : Str) : Error :=
  Error.parsing file linenum message

/-- The line `parsing_warning` writes to `std::cerr` (lines 74-80). -/
def parsing_warning (file : Str) (linenum : Nat) (message : Str) : Str :=
  "file ".toList ++ file ++ ": warning: ".toList ++ message ++ " at line ".toList
    ++ std.to_string linenum

/-! ## The containers -/

/-- Modelled from the spec: the container type of `headers` and `defines` is declared in
`GLSLExtension.hpp`, which is not part of the sources at hand; the spec asks for a mapping whose
iteration is "in deterministic key order". The entries are kept in a list that `assign` keeps in
ascending key order, as `std::map<std::string, std::string>` does. -/
structure StrMap where
  entries : List (Str × Str)
  deriving DecidableEq, Repr

namespace StrMap

/-- The empty map. -/
def empty : StrMap := ⟨[]⟩

/-- Lookup in a list of entries. -/
def findEntries : List (Str × Str) → Str → Option Str
  | [], _ => none
  | (k, v) :: t, name => if k = name then some v else findEntries t name

/-- `m.find(name)`: the mapped value, `none` for `m.end()`. -/
def find (m : StrMap) (name : Str) : Option Str := findEntries m.entries name

/-- Insert-or-replace in a list of entries, keeping ascending key order. -/
def assignEntries : List (Str × Str) → Str → Str → List (Str × Str)
  | [], name, value => [(name, value)]
  | (k, v) :: t, name, value =>
      if name < k then (name, value) :: (k, v) :: t
      else if name = k then (name, value) :: t
      else (k, v) :: assignEntries t name value

/-- `m[name] = value`. -/
def assign (m : StrMap) (name value : Str) : StrMap := ⟨assignEntries m.entries name value⟩

/-- `m.erase(name)`: removes every entry whose key is `name`. -/
def erase (m : StrMap) (name : Str) : StrMap := ⟨m.entries.filter (fun e => e.1 ≠ name)⟩

end StrMap

/-! ## The environment -/

/-- The file system as `files::read_bytes` sees it: the content of each file that can be
opened, `none` for a file that cannot. -/
abbrev Disk := Str → Option Str

/-- Modelled from the spec: `ResPaths` is declared in `files/engine_paths.hpp`, which is not part
of the sources at hand. The spec: `find(logicalPath) -> concretePath`, and the resolver may be
unable to find the path, which is the error message on the left. -/
structure ResPaths where
  find : Str → Except Str Str

namespace files

/-- `files::read_bytes` (files.cpp, lines 67-79): `nullptr` when the file cannot be opened. -/
def read_bytes (disk : Disk) (filename : Str) : Option Str := disk filename

/-- `files::read_string` (files.cpp, lines 81-89). -/
def read_string (disk : Disk) (filename : Str) : Except Error Str :=
  match read_bytes disk filename with
  | none => .error (Error.load filename)
  | some bytes => .ok bytes

end files

/-! ## The class -/

/-- The data members of `GLSLExtension` that the member functions of `GLSLExtension.cpp` read and
write (the class itself is declared in `GLSLExtension.hpp`). -/
structure GLSLExtension where
  headers : StrMap
  defines : StrMap
  version : Str
  paths : ResPaths

namespace GLSLExtension

/-- `setVersion` (lines 14-16). -/
def setVersion (self : GLSLExtension) (version : Str) : GLSLExtension :=
  { self with version := version }

/-- `setPaths` (lines 18-20). -/
def setPaths (self : GLSLExtension) (paths : ResPaths) : GLSLExtension :=
  { self with paths := paths }

/-- `addHeader` (lines 28-30). -/
def addHeader (self : GLSLExtension) (name source : Str) : GLSLExtension :=
  { self with headers := self.headers.assign name source }

/-- `loadHeader` (lines 22-26). -/
def loadHeader (self : GLSLExtension) (disk : Disk) (name : Str) : Except Error GLSLExtension :=
  match self.paths.find ("shaders/lib/".toList ++ name ++ ".glsl".toList) with
  | .error message => .error (Error.resolver message)
  | .ok file =>
    match files.read_string disk file with
    | .error e => .error e
    | .ok source => .ok (self.addHeader name source)

/-- `define` (lines 32-34). -/
def define (self : GLSLExtension) (name value : Str) : GLSLExtension :=
  { self with defines := self.defines.assign name value }

/-- `getHeader` (lines 36-42). -/
def getHeader (self : GLSLExtension) (name : Str) : Except Error Str :=
  match self.headers.find name with
  | none => .error (Error.no_header name)
  | some source => .ok source

/-- `getDefine` (lines 44-50). -/
def getDefine (self : GLSLExtension) (name : Str) : Str :=
  match self.defines.find name with
  | none => []
  | some value => value

/-- `hasDefine` (lines 52-54). -/
def hasDefine (self : GLSLExtension) (name : Str) : Bool := (self.defines.find name).isSome

/-- `hasHeader` (lines 56-58). -/
def hasHeader (self : GLSLExtension) (name : Str) : Bool := (self.headers.find name).isSome

/-- `undefine` (lines 60-64). -/
def undefine (self : GLSLExtension) (name : Str) : GLSLExtension :=
  if self.hasDefine name then { self with defines := self.defines.erase name } else self

end GLSLExtension

/-! ## The output stream -/

/-- One write to the stream `ss` of `process`; the constructor names the statement. -/
inductive Piece where
  /-- Line 90: the version line. -/
  | version (v : Str)
  /-- Line 92: one line of the define table. -/
  | define (name value : Str)
  /-- Lines 94 and 120: `source_line` before the source and before a header. -/
  | marker (linenum : Nat)
  /-- Line 121: the text of a header and the newline after it. -/
  | header (text : Str)
  /-- Lines 124 and 132: `source_line` after an include or a version directive. -/
  | restore (linenum : Nat)
  /-- Line 137: a line of the source, copied. -/
  | passed (text : Str)
  deriving DecidableEq, Repr

/-- What `source_line(ss, linenum)` writes (lines 82-84). -/
def source_line (linenum : Nat) : Str :=
  "#line ".toList ++ std.to_string linenum ++ ['\n']

/-- The characters a write puts on the stream. -/
def Piece.text : Piece → Str
  | .version v => "#version ".toList ++ v ++ ['\n']
  | .define name value => "#define ".toList ++ name ++ [' '] ++ value ++ ['\n']
  | .marker n => source_line n
  | .header text => text ++ ['\n']
  | .restore n => source_line n
  | .passed text => text

/-- `ss.str()`. -/
def str (ss : List Piece) : Str := (ss.map Piece.text).flatten

/-! ## `process` -/

/-- The state of a call of `process`: the object, the stream, what was written to `std::cerr`,
the local `linenum`, and the names `loadHeader` was called with (kept for the caching
properties; the source has no such variable). -/
structure Run where
  self : GLSLExtension
  ss : List Piece
  cerr : List Str
  loads : List Str
  linenum : Nat

/-- How a piece of `process` ends: normally, or by an exception. -/
inductive Exit where
  | done (st : Run)
  | thrown (e : Error) (st : Run)

/-- The body of the `while` loop of `process` (lines 96-138) for the line that starts at `pos`
and whose end `endline` was computed at lines 96-99, up to the assignment `pos = endline+1`
that ends every path through it. -/
def iteration (disk : Disk) (file source : Str) (pos endline : Nat) (st : Run) : Exit :=
  let fallthrough : Exit := .done { st with
    linenum := (st.linenum + 1) % UINT_MOD
    ss := st.ss ++ [.passed (std.substr source pos (endline + 1 - pos))] }
  if source.getD pos ' ' = '#' then
    let line := util.trim (std.substr source (pos + 1) (endline - pos))
    if std.contains line "include".toList then
      let line := util.trim (std.substr_from line 7)
      if line.length < 3 then
        .thrown (parsing_error file st.linenum "invalid \x27include\x27 syntax".toList) st
      else if line.head? ≠ some '<' ∨ line.getLast? ≠ some '>' then
        .thrown (parsing_error file st.linenum
          "expected \x27#include <filename>\x27 syntax".toList) st
      else
        let name := std.substr line 1 (line.length - 2)
        let loaded : Except Error GLSLExtension :=
          if st.self.hasHeader name then .ok st.self else st.self.loadHeader disk name
        let loads := if st.self.hasHeader name then st.loads else st.loads ++ [name]
        match loaded with
        | .error e => .thrown e { st with loads := loads }
        | .ok self1 =>
          match self1.getHeader name with
          | .error e => .thrown e { st with self := self1, loads := loads }
          | .ok text =>
            .done { self := self1
                    ss := st.ss ++ [.marker 1, .header text,
                      .restore ((st.linenum + 1) % UINT_MOD)]
                    cerr := st.cerr
                    loads := loads
                    linenum := (st.linenum + 1) % UINT_MOD }
    else if std.contains line "version".toList then
      .done { st with
        cerr := st.cerr ++ [parsing_warning file st.linenum "removed #version directive".toList]
        linenum := (st.linenum + 1) % UINT_MOD
        ss := st.ss ++ [.restore ((st.linenum + 1) % UINT_MOD)] }
    else fallthrough
  else fallthrough

/-- The `while` loop of `process` (lines 95-139), from the position `pos`. -/
def processLoop (disk : Disk) (file source : Str) (pos : Nat) (st : Run) : Exit :=
  if pos < source.length then
    match iteration disk file source pos
        ((std.find_char source '\n' pos).getD source.length) st with
    | .thrown e s => .thrown e s
    | .done s =>
      processLoop disk file source ((std.find_char source '\n' pos).getD source.length + 1) s
  else .done st
termination_by source.length - pos
decreasing_by
  simp only [std.find_char]
  split <;> simp <;> omega

/-- What a call of `process` leaves behind: the returned text or the exception, the object
afterwards, the warnings written to `std::cerr`, and the names `loadHeader` was called with. -/
structure Outcome where
  result : Except Error Str
  self : GLSLExtension
  cerr : List Str
  loads : List Str

namespace GLSLExtension

/-- Lines 87-139 of `process`: everything before `return ss.str()`. -/
def run (self : GLSLExtension) (disk : Disk) (file source : Str) : Exit :=
  processLoop disk file source 0
    { self := self
      ss := [.version self.version]
        ++ self.defines.entries.map (fun entry => Piece.define entry.1 entry.2)
        ++ [.marker 1]
      cerr := []
      loads := []
      linenum := 1 }

/-- `process` (lines 86-141). -/
def process (self : GLSLExtension) (disk : Disk) (file source : Str) : Outcome :=
  match self.run disk file source with
  | .done st => { result := .ok (str st.ss), self := st.self, cerr := st.cerr, loads := st.loads }
  | .thrown e st => { result := .error e, self := st.self, cerr := st.cerr, loads := st.loads }

end GLSLExtension

/-! ## Lines -/

/-- The lines the loop of `process` visits: each line keeps its terminating newline, and the
last one may have none. -/
def lines : Str → List Str
  | [] => []
  | c :: cs =>
    if c = '\n' then ['\n'] :: lines cs
    else
      match lines cs with
      | [] => [[c]]
      | l :: ls => (c :: l) :: ls

/-- The loop body run on one line taken by itself. -/
def lineStep (disk : Disk) (file : Str) (l : Str) (st : Run) : Exit :=
  iteration disk file l 0 ((std.find_char l '\n' 0).getD l.length) st

/-- The loop of `process` as a fold over the lines. -/
def foldLines (disk : Disk) (file : Str) : List Str → Run → Exit
  | [], st => .done st
  | l :: ls, st =>
    match lineStep disk file l st with
    | .thrown e s => .thrown e s
    | .done s => foldLines disk file ls s

/-! ## Vocabulary for the properties -/

/-- A line as the loop sees one: not empty, with no newline before its last character. -/
def IsLine (l : Str) : Prop := l ≠ [] ∧ l.length ≤ l.indexOf '\n' + 1

instance (l : Str) : Decidable (IsLine l) :=
  inferInstanceAs (Decidable (l ≠ [] ∧ l.length ≤ l.indexOf '\n' + 1))

/-- The directive text of a line: what follows its first character, trimmed (lines 102-103). -/
def directive (l : Str) : Str := util.trim (l.drop 1)

/-- The line takes the include branch (the tests of lines 101 and 105). -/
def takesInclude (l : Str) : Bool :=
  l.head? = some '#' && std.contains (directive l) "include".toList

/-- The line takes the version branch (the tests of lines 101, 105 and 128). -/
def takesVersion (l : Str) : Bool :=
  l.head? = some '#' && !std.contains (directive l) "include".toList
    && std.contains (directive l) "version".toList

/-- The line is consumed by a directive branch, that is, it is not copied to the output. -/
def consumed (l : Str) : Bool := takesInclude l || takesVersion l

/-- The include argument the code reads from a line: the directive text without its first seven
characters, trimmed (lines 106-107). -/
def includeArg (l : Str) : Str := util.trim (std.substr_from (directive l) 7)

/-- The include argument is rejected by the tests of lines 108 and 112. -/
def malformed (arg : Str) : Bool :=
  decide (arg.length < 3) || decide (arg.head? ≠ some '<') || decide (arg.getLast? ≠ some '>')

/-- The header name cut out of an include argument (line 116). -/
def nameOf (arg : Str) : Str := std.substr arg 1 (arg.length - 2)

/-- The header an include line names, when the line takes the include branch and passes its
syntax tests. -/
def includeName (l : Str) : Option Str :=
  if takesInclude l && !malformed (includeArg l) then some (nameOf (includeArg l)) else none

/-- What `loadHeader` reads for a name: the resolver lookup and the file read of lines 23-24. -/
def fetch (paths : ResPaths) (disk : Disk) (name : Str) : Except Error Str :=
  match paths.find ("shaders/lib/".toList ++ name ++ ".glsl".toList) with
  | .error message => .error (Error.resolver message)
  | .ok file => files.read_string disk file

/-- The paths through the loop body. -/
inductive Kind where
  | passed
  | version
  | bad (message : Str)
  | cached (name text : Str)
  | loaded (name text : Str)
  | failed (name : Str) (e : Error)

/-- The path the loop body takes on a line, given the object and the environment. -/
def classify (self : GLSLExtension) (disk : Disk) (l : Str) : Kind :=
  if takesInclude l then
    if (includeArg l).length < 3 then .bad "invalid \x27include\x27 syntax".toList
    else if (includeArg l).head? ≠ some '<' ∨ (includeArg l).getLast? ≠ some '>' then
      .bad "expected \x27#include <filename>\x27 syntax".toList
    else
      match self.headers.find (nameOf (includeArg l)) with
      | some text => .cached (nameOf (includeArg l)) text
      | none =>
        match fetch self.paths disk (nameOf (includeArg l)) with
        | .ok text => .loaded (nameOf (includeArg l)) text
        | .error e => .failed (nameOf (includeArg l)) e
  else if takesVersion l then .version
  else .passed

/-- The effect of each path of the loop body on the state. -/
def applyKind (file l : Str) (st : Run) : Kind → Exit
  | .passed => .done { st with
      linenum := (st.linenum + 1) % UINT_MOD
      ss := st.ss ++ [.passed l] }
  | .version => .done { st with
      cerr := st.cerr ++ [parsing_warning file st.linenum "removed #version directive".toList]
      linenum := (st.linenum + 1) % UINT_MOD
      ss := st.ss ++ [.restore ((st.linenum + 1) % UINT_MOD)] }
  | .bad message => .thrown (Error.parsing file st.linenum message) st
  | .cached _ text => .done { st with
      ss := st.ss ++ [.marker 1, .header text, .restore ((st.linenum + 1) % UINT_MOD)]
      linenum := (st.linenum + 1) % UINT_MOD }
  | .loaded name text => .done { st with
      self := st.self.addHeader name text
      ss := st.ss ++ [.marker 1, .header text, .restore ((st.linenum + 1) % UINT_MOD)]
      loads := st.loads ++ [name]
      linenum := (st.linenum + 1) % UINT_MOD }
  | .failed name e => .thrown e { st with loads := st.loads ++ [name] }

/-! ## A concrete setting for examples -/

/-- A resolver that finds nothing. -/
def noPaths : ResPaths := ⟨fun _ => .error "not found".toList⟩

/-- A file system on which no file can be opened. -/
def emptyDisk : Disk := fun _ => none

/-- Version `330`, no defines, and the header `fog` stored. -/
def fogContext : GLSLExtension :=
  { headers := ⟨[("fog".toList, "float fogFactor;\n".toList)]⟩
    defines := ⟨[]⟩
    version := "330".toList
    paths := noPaths }

/-- A resolver that finds every path under `res/`. -/
def libPaths : ResPaths := ⟨fun path => .ok ("res/".toList ++ path)⟩

/-- A file system with the single file `res/shaders/lib/sky.glsl`. -/
def skyDisk : Disk := fun filename =>
  if filename = "res/shaders/lib/sky.glsl".toList then some "vec3 sky;\n".toList else none

/-- The context `fogContext` with the resolver `libPaths`. -/
def skyContext : GLSLExtension := { fogContext with paths := libPaths }

/-! ## Line numbers seen by the compiler -/

/-- The number of newline characters of a text. -/
def newlines (s : Str) : Nat := s.countP (fun c => decide (c = '\n'))

/-- The line number the compiler is at after one more write, `cur` being the number before it
(`none` before the first marker): a marker written by `source_line` sets the number, any other
text advances it by the newlines it has. -/
def Piece.after (cur : Option Nat) : Piece → Option Nat
  | .marker n => some n
  | .restore n => some n
  | .version v => cur.map (fun n => n + newlines (Piece.text (.version v)))
  | .define name value => cur.map (fun n => n + newlines (Piece.text (.define name value)))
  | .header text => cur.map (fun n => n + newlines (Piece.text (.header text)))
  | .passed text => cur.map (fun n => n + newlines (Piece.text (.passed text)))

/-- The line number the compiler is at after the writes `ps`, starting from `cur`: the value of
the last marker plus the number of newlines after it. -/
def downstream : Option Nat → List Piece → Option Nat
  | cur, [] => cur
  | cur, p :: ps => downstream (Piece.after cur p) ps

/-- The copied source lines of a stream, in order, each with the line number the compiler is at
where the line starts. -/
def passedAt : Option Nat → List Piece → List (Option Nat × Str)
  | _, [] => []
  | cur, .passed text :: ps => (cur, text) :: passedAt (Piece.after cur (.passed text)) ps
  | cur, .version v :: ps => passedAt (Piece.after cur (.version v)) ps
  | cur, .define name value :: ps => passedAt (Piece.after cur (.define name value)) ps
  | cur, .marker n :: ps => passedAt (Piece.after cur (.marker n)) ps
  | cur, .header text :: ps => passedAt (Piece.after cur (.header text)) ps
  | cur, .restore n :: ps => passedAt (Piece.after cur (.restore n)) ps

/-- The line numbers of the markers written after a directive (lines 124 and 132), in order. -/
def restores : List Piece → List Nat
  | [] => []
  | .restore n :: ps => n :: restores ps
  | .passed _ :: ps => restores ps
  | .version _ :: ps => restores ps
  | .define _ _ :: ps => restores ps
  | .marker _ :: ps => restores ps
  | .header _ :: ps => restores ps

/-- The lines with their numbers, counted from `i`. -/
def numbered : Nat → List Str → List (Nat × Str)
  | _, [] => []
  | i, l :: ls => (i, l) :: numbered (i + 1) ls

/-- For the directive lines among numbered lines, in order: the number of the next line. -/
def directiveMarkers : List (Nat × Str) → List Nat
  | [] => []
  | (k, l) :: rest => if consumed l then (k + 1) :: directiveMarkers rest else directiveMarkers rest

/-- The copied lines among numbered lines, in order, each with its number. -/
def copiedLines : List (Nat × Str) → List (Option Nat × Str)
  | [] => []
  | (i, l) :: rest => if consumed l then copiedLines rest else (some i, l) :: copiedLines rest

/-- Every line but the last ends with a newline. -/
def wholeLines : List Str → Prop
  | [] => True
  | [_] => True
  | l :: l2 :: rest => l.getLast? = some '\n' ∧ wholeLines (l2 :: rest)

/-! ## The loop as a fold over lines -/

theorem lines_cons_eq (s : Str) (hs : s ≠ []) :
    lines s = s.take (s.indexOf '\n' + 1) :: lines (s.drop (s.indexOf '\n' + 1)) := by
  induction s with
  | nil => exact absurd rfl hs
  | cons c cs ih =>
    by_cases hc : c = '\n'
    · subst hc
      simp [lines]
    · have hne : ¬ (c == '\n') = true := by simpa using hc
      rw [List.indexOf_cons]
      simp only [lines, hc, if_false, hne, cond_false]
      by_cases hcs : cs = []
      · subst hcs
        simp [lines]
      · rw [ih hcs]
        simp

theorem find_char_getD (s : Str) (pos : Nat) (h : pos ≤ s.length) :
    (std.find_char s '\n' pos).getD s.length = pos + (s.drop pos).indexOf '\n' := by
  unfold std.find_char
  split
  · rfl
  · rename_i hlt
    have h1 : (s.drop pos).indexOf '\n' ≤ (s.drop pos).length := List.indexOf_le_length
    have h2 : (s.drop pos).length = s.length - pos := List.length_drop _ _
    simp only [Option.getD_none]
    omega

theorem indexOf_take_succ (s : Str) (c : Char) :
    (s.take (s.indexOf c + 1)).indexOf c = s.indexOf c
      ∨ (s.take (s.indexOf c + 1)) = s ∧ s.indexOf c = s.length := by
  induction s with
  | nil => simp
  | cons a t ih =>
    by_cases hc : a = c
    · subst hc
      left
      simp
    · have hne : ¬ (a == c) = true := by simpa using hc
      rw [List.indexOf_cons]
      simp only [hne, cond_false, List.take_succ_cons]
      rcases ih with h | ⟨h1, h2⟩
      · left
        rw [List.indexOf_cons]
        simp [hne, h]
      · right
        simp [h1, h2]

theorem lineStep_firstLine (disk : Disk) (file s : Str) (st : Run) :
    lineStep disk file (s.take (s.indexOf '\n' + 1)) st
      = iteration disk file (s.take (s.indexOf '\n' + 1)) 0 (s.indexOf '\n') st := by
  unfold lineStep
  rw [find_char_getD _ 0 (Nat.zero_le _)]
  simp only [List.drop_zero, Nat.zero_add]
  rcases indexOf_take_succ s '\n' with h | ⟨h1, _⟩
  · rw [h]
  · rw [h1]

theorem iteration_shift (disk : Disk) (file source : Str) (pos e : Nat) (st : Run) :
    iteration disk file source pos (pos + e) st
      = iteration disk file ((source.drop pos).take (e + 1)) 0 e st := by
  have h0 : source.getD pos ' ' = ((source.drop pos).take (e + 1)).getD 0 ' ' := by
    simp [List.getD_eq_getElem?_getD, List.getElem?_take, List.getElem?_drop]
  have h1 : std.substr source (pos + 1) (pos + e - pos)
      = std.substr ((source.drop pos).take (e + 1)) (0 + 1) (e - 0) := by
    simp [std.substr, List.drop_take, List.take_take]
  have h2 : std.substr source pos (pos + e + 1 - pos)
      = std.substr ((source.drop pos).take (e + 1)) 0 (e + 1 - 0) := by
    have : pos + e + 1 - pos = e + 1 := by omega
    simp [std.substr, List.take_take, this]
  unfold iteration
  rw [h0, h1, h2]

theorem processLoop_eq_foldLines (disk : Disk) (file source : Str) :
    ∀ (n pos : Nat) (st : Run), source.length - pos ≤ n →
      processLoop disk file source pos st = foldLines disk file (lines (source.drop pos)) st := by
  intro n
  induction n with
  | zero =>
    intro pos st h
    have hp : ¬ pos < source.length := by omega
    rw [processLoop]
    have : source.drop pos = [] := List.drop_eq_nil_of_le (by omega)
    simp [hp, this, lines, foldLines]
  | succ n ih =>
    intro pos st h
    rw [processLoop]
    by_cases hp : pos < source.length
    · have hne : source.drop pos ≠ [] := by
        intro h0
        have := List.drop_eq_nil_iff.mp h0
        omega
      rw [lines_cons_eq _ hne, find_char_getD _ _ (Nat.le_of_lt hp)]
      simp only [hp, dite_true, if_true, foldLines]
      rw [lineStep_firstLine, iteration_shift]
      cases hit : iteration disk file ((source.drop pos).take ((source.drop pos).indexOf '\n' + 1)) 0
          ((source.drop pos).indexOf '\n') st with
      | thrown e s => rfl
      | done s =>
        simp only
        rw [ih _ _ (by omega), List.drop_drop, Nat.add_assoc]
    · have : source.drop pos = [] := List.drop_eq_nil_of_le (by omega)
      simp [hp, this, lines, foldLines]

/-- The initial state of the loop: the preamble written at lines 90-94. -/
theorem run_eq_foldLines (self : GLSLExtension) (disk : Disk) (file source : Str) :
    self.run disk file source = foldLines disk file (lines source)
      { self := self
        ss := [.version self.version]
          ++ self.defines.entries.map (fun entry => Piece.define entry.1 entry.2)
          ++ [.marker 1]
        cerr := []
        loads := []
        linenum := 1 } := by
  unfold GLSLExtension.run
  rw [processLoop_eq_foldLines disk file source source.length 0 _ (by omega)]
  simp

/-! ## Lines -/

theorem lines_isLine (s : Str) : ∀ l ∈ lines s, IsLine l := by
  induction s with
  | nil => intro l hl; simp [lines] at hl
  | cons c cs ih =>
    intro l hl
    by_cases hc : c = '\n'
    · subst hc
      simp only [lines, if_true, List.mem_cons] at hl
      rcases hl with rfl | hl
      · exact ⟨by simp, by simp⟩
      · exact ih l hl
    · have hne : ¬ (c == '\n') = true := by simpa using hc
      simp only [lines, hc, if_false] at hl
      cases hlc : lines cs with
      | nil =>
        rw [hlc] at hl
        simp only [List.mem_singleton] at hl
        subst hl
        refine ⟨by simp, ?_⟩
        rw [List.indexOf_cons]
        simp [hne]
      | cons l0 ls =>
        rw [hlc] at hl
        simp only [List.mem_cons] at hl
        rcases hl with rfl | hl
        · have h0 := ih l0 (by rw [hlc]; exact List.mem_cons_self _ _)
          refine ⟨by simp, ?_⟩
          rw [List.indexOf_cons]
          simp only [hne, cond_false, List.length_cons]
          have := h0.2
          omega
        · exact ih l (by rw [hlc]; exact List.mem_cons_of_mem _ hl)

theorem lines_flatten (s : Str) : (lines s).flatten = s := by
  induction s with
  | nil => simp [lines]
  | cons c cs ih =>
    by_cases hc : c = '\n'
    · simp [lines, hc, ih]
    · simp only [lines, hc, if_false]
      cases hlc : lines cs with
      | nil =>
        rw [hlc] at ih
        simp at ih
        simp [← ih]
      | cons l0 ls =>
        rw [hlc] at ih
        simp only [List.flatten_cons] at ih
        simp [← ih]

theorem lines_eq_nil (s : Str) : lines s = [] ↔ s = [] := by
  constructor
  · intro h
    have := lines_flatten s
    rw [h] at this
    simpa using this.symm
  · intro h
    subst h
    rfl

theorem lines_cons_ne (c : Char) (cs : Str) (hc : c ≠ '\n') :
    lines (c :: cs) = match lines cs with
      | [] => [[c]]
      | l :: ls => (c :: l) :: ls := by
  rw [lines]
  simp only [hc, if_false]

theorem lines_append_newline (p q : Str) :
    lines (p ++ '\n' :: q) = lines (p ++ ['\n']) ++ lines q := by
  induction p with
  | nil => simp [lines]
  | cons c cs ih =>
    by_cases hc : c = '\n'
    · simp [lines, hc, ih]
    · rw [List.cons_append, List.cons_append, lines_cons_ne _ _ hc, lines_cons_ne _ _ hc, ih]
      cases hlc : lines (cs ++ ['\n']) with
      | nil =>
        have := (lines_eq_nil _).mp hlc
        simp at this
      | cons l0 ls => simp

/-- A text that is empty or ends with a newline is a sequence of whole lines: the lines of
what follows it are not affected by it. -/
theorem lines_append (p q : Str) (hp : p = [] ∨ p.getLast? = some '\n') :
    lines (p ++ q) = lines p ++ lines q := by
  rcases hp with rfl | hp
  · simp [lines]
  · obtain ⟨p0, rfl⟩ : ∃ p0, p = p0 ++ ['\n'] := List.getLast?_eq_some_iff.mp hp
    rw [List.append_assoc]
    exact lines_append_newline p0 q

theorem lines_single (l : Str) (hl : IsLine l) : lines l = [l] := by
  have h := lines_cons_eq l hl.1
  have h1 : l.take (l.indexOf '\n' + 1) = l := List.take_of_length_le hl.2
  have h2 : l.drop (l.indexOf '\n' + 1) = [] := List.drop_eq_nil_of_le hl.2
  rw [h1, h2] at h
  simpa [lines] using h

/-! ## The loop body on one line -/

theorem loadHeader_eq (self : GLSLExtension) (disk : Disk) (name : Str) :
    self.loadHeader disk name =
      match fetch self.paths disk name with
      | .error e => .error e
      | .ok source => .ok (self.addHeader name source) := by
  unfold GLSLExtension.loadHeader fetch
  cases self.paths.find ("shaders/lib/".toList ++ name ++ ".glsl".toList) with
  | error m => rfl
  | ok f => rfl

theorem findEntries_assignEntries_self (es : List (Str × Str)) (name value : Str) :
    StrMap.findEntries (StrMap.assignEntries es name value) name = some value := by
  induction es with
  | nil => simp [StrMap.assignEntries, StrMap.findEntries]
  | cons e t ih =>
    obtain ⟨k, v⟩ := e
    unfold StrMap.assignEntries
    by_cases h1 : name < k
    · simp [h1, StrMap.findEntries]
    · by_cases h2 : name = k
      · simp [h1, h2, StrMap.findEntries]
      · have h3 : ¬ k = name := fun h => h2 h.symm
        simp [h1, h2, h3, StrMap.findEntries, ih]

theorem findEntries_assignEntries_other (es : List (Str × Str)) (name value other : Str)
    (h : other ≠ name) :
    StrMap.findEntries (StrMap.assignEntries es name value) other
      = StrMap.findEntries es other := by
  induction es with
  | nil =>
    have h3 : ¬ name = other := fun h' => h h'.symm
    simp [StrMap.assignEntries, StrMap.findEntries, h3]
  | cons e t ih =>
    obtain ⟨k, v⟩ := e
    have h3 : ¬ name = other := fun h' => h h'.symm
    unfold StrMap.assignEntries
    by_cases h1 : name < k
    · simp [h1, StrMap.findEntries, h3]
    · by_cases h2 : name = k
      · subst h2
        simp [h1, StrMap.findEntries, h3]
      · simp only [h1, h2, if_false, StrMap.findEntries, ih]

theorem find_assign_self (m : StrMap) (name value : Str) :
    (m.assign name value).find name = some value :=
  findEntries_assignEntries_self m.entries name value

theorem find_assign_other (m : StrMap) (name value other : Str) (h : other ≠ name) :
    (m.assign name value).find other = m.find other :=
  findEntries_assignEntries_other m.entries name value other h

theorem lineStep_eq_applyKind (disk : Disk) (file l : Str) (st : Run) (hl : IsLine l) :
    lineStep disk file l st = applyKind file l st (classify st.self disk l) := by
  obtain ⟨hne, hlen⟩ := hl
  have he : (std.find_char l '\n' 0).getD l.length = l.indexOf '\n' := by
    rw [find_char_getD _ 0 (Nat.zero_le _)]
    simp
  have h0 : (l.getD 0 ' ' = '#') = (l.head? = some '#') := by
    cases l with
    | nil => exact absurd rfl hne
    | cons c t => simp
  have h1 : std.substr l (0 + 1) (l.indexOf '\n' - 0) = l.drop 1 := by
    unfold std.substr
    apply List.take_of_length_le
    simp only [List.length_drop]
    omega
  have h2 : std.substr l 0 (l.indexOf '\n' + 1 - 0) = l := by
    unfold std.substr
    simp only [List.drop_zero, Nat.sub_zero]
    exact List.take_of_length_le hlen
  have hd : util.trim (l.drop 1) = directive l := rfl
  have ha : util.trim (std.substr_from (directive l) 7) = includeArg l := rfl
  have hn : std.substr (includeArg l) 1 ((includeArg l).length - 2) = nameOf (includeArg l) := rfl
  unfold lineStep iteration
  simp only [he, h0, h1, h2, hd, ha, hn]
  unfold classify takesInclude takesVersion
  by_cases hh : l.head? = some '#'
  · by_cases hi : std.contains (directive l) "include".toList = true
    · simp only [hh, hi, if_true, decide_True, Bool.true_and, Bool.and_self]
      by_cases h3 : (includeArg l).length < 3
      · simp only [h3, if_true, applyKind, parsing_error]
      · simp only [h3, if_false]
        by_cases h4 : (includeArg l).head? ≠ some '<' ∨ (includeArg l).getLast? ≠ some '>'
        · simp only [h4, if_true, applyKind, parsing_error]
        · simp only [h4, if_false]
          cases hf : st.self.headers.find (nameOf (includeArg l)) with
          | some text =>
            simp only [GLSLExtension.hasHeader, GLSLExtension.getHeader, hf, applyKind,
              Option.isSome_some, if_true]
          | none =>
            rw [loadHeader_eq]
            cases hft : fetch st.self.paths disk (nameOf (includeArg l)) with
            | error e =>
              simp only [GLSLExtension.hasHeader, hf, applyKind, Option.isSome_none,
                Bool.false_eq_true, if_false]
            | ok text =>
              simp only [GLSLExtension.hasHeader, GLSLExtension.getHeader, hf, applyKind,
                GLSLExtension.addHeader, find_assign_self, Option.isSome_none,
                Bool.false_eq_true, if_false]
    · by_cases hv : std.contains (directive l) "version".toList = true
      · simp only [hh, hi, hv, applyKind, if_true, if_false, decide_True, Bool.true_and,
          Bool.not_false, Bool.false_eq_true, Bool.and_self, Bool.and_false, Bool.not_true,
          Bool.and_true]
      · simp only [hh, hi, hv, applyKind, if_true, if_false, decide_True, Bool.true_and,
          Bool.not_false, Bool.false_eq_true, Bool.and_self, Bool.and_false, Bool.not_true,
          Bool.and_true]
  · simp only [hh, applyKind, if_false, decide_False, Bool.false_and, Bool.false_eq_true]

/-! ## Folding over several lines -/

theorem foldLines_append (disk : Disk) (file : Str) (a b : List Str) (st : Run) :
    foldLines disk file (a ++ b) st =
      match foldLines disk file a st with
      | .done s => foldLines disk file b s
      | .thrown e s => .thrown e s := by
  induction a generalizing st with
  | nil => rfl
  | cons l ls ih =>
    simp only [List.cons_append, foldLines]
    cases lineStep disk file l st with
    | thrown e s => rfl
    | done s => exact ih s

theorem classify_passed (self : GLSLExtension) (disk : Disk) (l : Str)
    (h : consumed l = false) : classify self disk l = .passed := by
  unfold consumed at h
  rw [Bool.or_eq_false_iff] at h
  unfold classify
  simp only [h.1, h.2, Bool.false_eq_true, if_false]

theorem classify_version (self : GLSLExtension) (disk : Disk) (l : Str)
    (h : takesVersion l = true) : classify self disk l = .version := by
  have hi : takesInclude l = false := by
    unfold takesVersion at h
    unfold takesInclude
    simp only [Bool.and_eq_true, Bool.not_eq_true', decide_eq_true_eq] at h
    rw [h.1.2]
    simp
  unfold classify
  simp only [hi, h, if_true, Bool.false_eq_true, if_false]

theorem str_append (a b : List Piece) : str (a ++ b) = str a ++ str b := by
  simp [str]

theorem str_passed (ls : List Str) : str (ls.map Piece.passed) = ls.flatten := by
  induction ls with
  | nil => rfl
  | cons l t ih =>
    simp only [str, List.map_cons, List.flatten_cons, Piece.text] at ih ⊢
    rw [ih]

theorem foldLines_passed (disk : Disk) (file : Str) (ls : List Str) (st : Run)
    (hl : ∀ l ∈ ls, IsLine l) (hp : ∀ l ∈ ls, consumed l = false)
    (hlt : st.linenum < UINT_MOD) :
    foldLines disk file ls st = .done { st with
      linenum := (st.linenum + ls.length) % UINT_MOD
      ss := st.ss ++ ls.map Piece.passed } := by
  induction ls generalizing st with
  | nil =>
    simp only [foldLines, List.length_nil, Nat.add_zero, List.map_nil, List.append_nil,
      Nat.mod_eq_of_lt hlt]
  | cons l t ih =>
    have h1 := lineStep_eq_applyKind disk file l st (hl l (List.mem_cons_self _ _))
    rw [classify_passed _ _ _ (hp l (List.mem_cons_self _ _))] at h1
    simp only [foldLines, h1, applyKind]
    rw [ih _ (fun x hx => hl x (List.mem_cons_of_mem _ hx))
      (fun x hx => hp x (List.mem_cons_of_mem _ hx)) (Nat.mod_lt _ (by decide))]
    have e : st.linenum + 1 + t.length = st.linenum + (t.length + 1) := by omega
    simp only [List.length_cons, List.map_cons, List.append_assoc, List.singleton_append,
      Nat.mod_add_mod, e]

/-- The text the preamble of `process` puts on the stream (lines 90-94). -/
theorem str_preamble (self : GLSLExtension) :
    str ([.version self.version]
        ++ self.defines.entries.map (fun entry => Piece.define entry.1 entry.2)
        ++ [.marker 1])
      = "#version ".toList ++ self.version ++ ['\n']
        ++ (self.defines.entries.map
            (fun e => "#define ".toList ++ e.1 ++ [' '] ++ e.2 ++ ['\n'])).flatten
        ++ "#line 1\n".toList := by
  have h1 : source_line 1 = "#line 1\n".toList := by decide
  simp only [str, List.map_append, List.map_cons, List.map_nil, List.map_map, Piece.text,
    List.flatten_append, List.flatten_cons, List.flatten_nil, List.append_nil, h1]
  congr 2


/-- C5. When no line of the source is consumed by a directive branch (each line either does not
start with `#`, or starts with `#` and its directive text contains neither `include` nor
`version`), `process` succeeds and returns the version line, one `#define name value` line per
entry of the define table, the marker `#line 1`, and then the source itself, byte for byte. -/
theorem process_passthrough (self : GLSLExtension) (disk : Disk) (file s : Str)
    (hs : ∀ l ∈ lines s, l.head? ≠ some '#'
      ∨ (std.contains (directive l) "include".toList = false
        ∧ std.contains (directive l) "version".toList = false)) :
    (self.process disk file s).result = .ok
      ("#version ".toList ++ self.version ++ ['\n']
        ++ (self.defines.entries.map
            (fun e => "#define ".toList ++ e.1 ++ [' '] ++ e.2 ++ ['\n'])).flatten
        ++ "#line 1\n".toList ++ s) := by
  have hp : ∀ l ∈ lines s, consumed l = false := by
    intro l hl
    unfold consumed takesInclude takesVersion
    rcases hs l hl with h | ⟨h1, h2⟩
    · simp [h]
    · rw [h1, h2]
      simp
  unfold GLSLExtension.process
  rw [run_eq_foldLines, foldLines_passed disk file (lines s) _ (lines_isLine s) hp
    (show (1 : Nat) < UINT_MOD by decide)]
  simp only []
  rw [str_append, str_preamble, str_passed, lines_flatten]

/-! ## One line in its context -/

theorem isLine_newline_end (b : Str) (h : '\n' ∉ b) : IsLine (b ++ ['\n']) := by
  refine ⟨by simp, ?_⟩
  rw [List.indexOf_append_of_not_mem h]
  simp

theorem isLine_no_newline (b : Str) (hne : b ≠ []) (h : '\n' ∉ b) : IsLine b := by
  refine ⟨hne, ?_⟩
  rw [List.indexOf_eq_length.mpr h]
  omega

theorem run_split (self : GLSLExtension) (disk : Disk) (file p l b : Str)
    (hp : p = [] ∨ p.getLast? = some '\n') (hl : IsLine l)
    (hb : b = [] ∨ l.getLast? = some '\n') :
    self.run disk file (p ++ l ++ b) =
      match self.run disk file p with
      | .thrown e s => .thrown e s
      | .done s =>
        match applyKind file l s (classify s.self disk l) with
        | .thrown e s1 => .thrown e s1
        | .done s1 => foldLines disk file (lines b) s1 := by
  have hlines : lines (p ++ l ++ b) = lines p ++ l :: lines b := by
    rw [List.append_assoc, lines_append p _ hp]
    congr 1
    rcases hb with rfl | hb
    · simp [lines, lines_single l hl]
    · rw [lines_append l _ (Or.inr hb), lines_single l hl]
      rfl
  rw [run_eq_foldLines, run_eq_foldLines, hlines, foldLines_append]
  cases foldLines disk file (lines p) _ with
  | thrown e s => rfl
  | done s =>
    simp only [foldLines]
    rw [lineStep_eq_applyKind disk file l s hl]

/-- The state of the loop after a text whose lines are all copied. -/
theorem run_passed (self : GLSLExtension) (disk : Disk) (file a : Str)
    (ha : ∀ x ∈ lines a, consumed x = false) :
    self.run disk file a = .done
      { self := self
        ss := [.version self.version]
          ++ self.defines.entries.map (fun entry => Piece.define entry.1 entry.2)
          ++ [.marker 1] ++ (lines a).map Piece.passed
        cerr := []
        loads := []
        linenum := (1 + (lines a).length) % UINT_MOD } := by
  rw [run_eq_foldLines, foldLines_passed disk file (lines a) _ (lines_isLine a) ha
    (show (1 : Nat) < UINT_MOD by decide)]

/-! ## The include line `#include <name>` -/

theorem trim_include_line (n : Str) :
    util.trim ("include <".toList ++ n ++ ">\n".toList) = "include <".toList ++ n ++ ['>'] := by
  simp [util.trim, util.rtrim, util.ltrim, List.dropWhile, std.isspace]

theorem trim_include_arg (n : Str) :
    util.trim (" <".toList ++ n ++ ['>']) = '<' :: n ++ ['>'] := by
  simp [util.trim, util.rtrim, util.ltrim, List.dropWhile, std.isspace]

theorem contains_of_starts (s pat : Str) (h : pat.isPrefixOf s = true) :
    std.contains s pat = true := by
  cases s with
  | nil =>
    cases pat with
    | nil => rfl
    | cons c t => simp [List.isPrefixOf] at h
  | cons c cs => simp [std.contains, h]

/-- The line `#include <n>` followed by a newline, as the loop body reads it. -/
theorem include_line_facts (n : Str) (hnl : '\n' ∉ n) :
    IsLine ("#include <".toList ++ n ++ ">\n".toList)
      ∧ takesInclude ("#include <".toList ++ n ++ ">\n".toList) = true
      ∧ includeArg ("#include <".toList ++ n ++ ">\n".toList) = '<' :: n ++ ['>']
      ∧ ("#include <".toList ++ n ++ ">\n".toList).getLast? = some '\n' := by
  have hd : directive ("#include <".toList ++ n ++ ">\n".toList)
      = "include <".toList ++ n ++ ['>'] := by
    rw [← trim_include_line n]
    rfl
  refine ⟨?_, ?_, ?_, ?_⟩
  · have : "#include <".toList ++ n ++ ">\n".toList = ("#include <".toList ++ n ++ ['>']) ++ ['\n'] := by
      simp
    rw [this]
    apply isLine_newline_end
    simp [hnl]
  · unfold takesInclude
    rw [hd]
    rw [contains_of_starts _ _ (by simp [List.isPrefixOf])]
    simp
  · unfold includeArg
    rw [hd, ← trim_include_arg n]
    rfl
  · have : "#include <".toList ++ n ++ ">\n".toList = ("#include <".toList ++ n ++ ['>']) ++ ['\n'] := by
      simp
    rw [this]
    exact List.getLast?_concat _

theorem nameOf_brackets (n : Str) : nameOf ('<' :: n ++ ['>']) = n := by
  simp [nameOf, std.substr]

theorem malformed_brackets (n : Str) (hn : n ≠ []) : malformed ('<' :: n ++ ['>']) = false := by
  have hlast : ('<' :: n ++ ['>']).getLast? = some '>' := List.getLast?_concat ('<' :: n)
  cases n with
  | nil => exact absurd rfl hn
  | cons c t =>
    unfold malformed
    rw [hlast]
    simp

theorem classify_cached (self : GLSLExtension) (disk : Disk) (l name text : Str)
    (hi : takesInclude l = true) (hm : malformed (includeArg l) = false)
    (hname : nameOf (includeArg l) = name) (hf : self.headers.find name = some text) :
    classify self disk l = .cached name text := by
  unfold malformed at hm
  simp only [Bool.or_eq_false_iff, decide_eq_false_iff_not, not_not, Nat.not_lt] at hm
  obtain ⟨⟨h1, h2⟩, h3⟩ := hm
  unfold classify
  have h1' : ¬ (includeArg l).length < 3 := by omega
  have h4 : ¬ ((includeArg l).head? ≠ some '<' ∨ (includeArg l).getLast? ≠ some '>') := by
    simp [h2, h3]
  simp only [hi, h1', h4, if_true, if_false, hname, hf]

theorem str_passed_lines (s : Str) : str ((lines s).map Piece.passed) = s := by
  rw [str_passed, lines_flatten]

theorem process_eq_fold (self : GLSLExtension) (disk : Disk) (file source : Str) :
    self.process disk file source =
      match foldLines disk file (lines source)
        { self := self
          ss := [.version self.version]
            ++ self.defines.entries.map (fun entry => Piece.define entry.1 entry.2)
            ++ [.marker 1]
          cerr := []
          loads := []
          linenum := 1 } with
      | .done st =>
        { result := .ok (str st.ss), self := st.self, cerr := st.cerr, loads := st.loads }
      | .thrown e st =>
        { result := .error e, self := st.self, cerr := st.cerr, loads := st.loads } := by
  unfold GLSLExtension.process
  rw [run_eq_foldLines]

/-- The output for `k-1` copied lines, a line that includes a stored header, and further copied
lines. -/
theorem process_around_cached (self : GLSLExtension) (disk : Disk) (file a l b name text : Str)
    (k : Nat)
    (ha : a = [] ∨ a.getLast? = some '\n')
    (hk : (lines a).length + 1 = k)
    (hap : ∀ x ∈ lines a, consumed x = false)
    (hl : IsLine l) (hlb : b = [] ∨ l.getLast? = some '\n')
    (hc : classify self disk l = .cached name text)
    (hbp : ∀ x ∈ lines b, consumed x = false)
    (hrange : k + 1 < UINT_MOD) :
    (self.process disk file (a ++ l ++ b)).result
      = .ok ("#version ".toList ++ self.version ++ ['\n']
          ++ (self.defines.entries.map
              (fun e => "#define ".toList ++ e.1 ++ [' '] ++ e.2 ++ ['\n'])).flatten
          ++ "#line 1\n".toList ++ a
          ++ "#line 1\n".toList ++ text ++ "\n#line ".toList ++ std.to_string (k + 1)
          ++ "\n".toList ++ b) := by
  unfold GLSLExtension.process
  rw [run_split self disk file a l b ha hl hlb, run_passed self disk file a hap]
  simp only [hc, applyKind]
  rw [foldLines_passed disk file (lines b) _ (lines_isLine b) hbp (Nat.mod_lt _ (by decide))]
  have e1 : (1 + (lines a).length) % UINT_MOD = k := by
    rw [Nat.mod_eq_of_lt (by omega)]
    omega
  have e2 : (k + 1) % UINT_MOD = k + 1 := Nat.mod_eq_of_lt hrange
  have h1 : source_line 1 = "#line 1\n".toList := by decide
  simp only [e1, e2]
  rw [str_append, str_append, str_append, str_preamble, str_passed_lines, str_passed_lines]
  simp only [str, List.map_cons, List.map_nil, Piece.text, List.flatten_cons,
    List.flatten_nil, List.append_nil, h1]
  simp [source_line]

/-- The output for `k-1` copied lines, a line that takes the version branch, and further copied
lines. -/
theorem process_around_version (self : GLSLExtension) (disk : Disk) (file a l b : Str)
    (k : Nat)
    (ha : a = [] ∨ a.getLast? = some '\n')
    (hk : (lines a).length + 1 = k)
    (hap : ∀ x ∈ lines a, consumed x = false)
    (hl : IsLine l) (hlb : b = [] ∨ l.getLast? = some '\n')
    (hv : takesVersion l = true)
    (hbp : ∀ x ∈ lines b, consumed x = false)
    (hrange : k + 1 < UINT_MOD) :
    (self.process disk file (a ++ l ++ b)).result
      = .ok ("#version ".toList ++ self.version ++ ['\n']
          ++ (self.defines.entries.map
              (fun e => "#define ".toList ++ e.1 ++ [' '] ++ e.2 ++ ['\n'])).flatten
          ++ "#line 1\n".toList ++ a
          ++ "#line ".toList ++ std.to_string (k + 1) ++ "\n".toList ++ b) := by
  unfold GLSLExtension.process
  rw [run_split self disk file a l b ha hl hlb, run_passed self disk file a hap]
  simp only [classify_version _ _ _ hv, applyKind]
  rw [foldLines_passed disk file (lines b) _ (lines_isLine b) hbp (Nat.mod_lt _ (by decide))]
  have e1 : (1 + (lines a).length) % UINT_MOD = k := by
    rw [Nat.mod_eq_of_lt (by omega)]
    omega
  have e2 : (k + 1) % UINT_MOD = k + 1 := Nat.mod_eq_of_lt hrange
  simp only [e1, e2]
  rw [str_append, str_append, str_append, str_preamble, str_passed_lines, str_passed_lines]
  simp only [str, List.map_cons, List.map_nil, Piece.text, List.flatten_cons,
    List.flatten_nil, List.append_nil]
  simp [source_line]

/-! ## Claims -/

/-- C1. With an empty define table and the header `n` stored with text `h`, a source made of
`k-1` copied lines, the line `#include <n>` and further copied lines gives the version line,
`#line 1`, the first lines, `#line 1`, the text `h` as stored followed by a newline, `#line k+1`,
and the remaining lines. The text `h` is arbitrary and is not scanned. (`k+1` is within the
range of `uint`.) -/
theorem process_include (self : GLSLExtension) (disk : Disk) (file a b n h : Str) (k : Nat)
    (hdef : self.defines.entries = [])
    (hn : n ≠ []) (hnl : '\n' ∉ n)
    (hh : self.headers.find n = some h)
    (ha : a = [] ∨ a.getLast? = some '\n')
    (hk : (lines a).length + 1 = k)
    (hap : ∀ l ∈ lines a, consumed l = false)
    (hbp : ∀ l ∈ lines b, consumed l = false)
    (hrange : k + 1 < UINT_MOD) :
    (self.process disk file (a ++ ("#include <".toList ++ n ++ ">\n".toList) ++ b)).result
      = .ok ("#version ".toList ++ self.version ++ "\n#line 1\n".toList ++ a
          ++ "#line 1\n".toList ++ h ++ "\n#line ".toList ++ std.to_string (k + 1)
          ++ "\n".toList ++ b) := by
  obtain ⟨hl, hi, harg, hlast⟩ := include_line_facts n hnl
  have hc := classify_cached self disk _ n h hi (by rw [harg]; exact malformed_brackets n hn)
    (by rw [harg]; exact nameOf_brackets n) hh
  rw [process_around_cached self disk file a _ b n h k ha hk hap hl (Or.inr hlast) hc hbp hrange,
    hdef]
  simp

theorem process_include_witness :
    (fogContext.process emptyDisk "main.glsl".toList
      ([] ++ ("#include <".toList ++ "fog".toList ++ ">\n".toList)
        ++ "void main()\x7b\x7d\n".toList)).result
      = .ok ("#version ".toList ++ fogContext.version ++ "\n#line 1\n".toList ++ []
          ++ "#line 1\n".toList ++ "float fogFactor;\n".toList ++ "\n#line ".toList
          ++ std.to_string (1 + 1) ++ "\n".toList ++ "void main()\x7b\x7d\n".toList) :=
  process_include fogContext emptyDisk "main.glsl".toList [] "void main()\x7b\x7d\n".toList
    "fog".toList "float fogFactor;\n".toList 1 rfl (by decide) (by decide) rfl (Or.inl rfl)
    rfl (by decide) (by decide) (by decide)


/-- C4, as stated, fails: with version `330`, no defines and `void main()` as the only other
line, the source `#version 330 core` + newline + rest does not come back as the version line,
`#line 1` and the rest: the marker `#line 2` stands where the version line was. -/
theorem version_line_counterexample :
    (∀ l ∈ lines "void main()\x7b\x7d\n".toList, consumed l = false)
      ∧ fogContext.defines.entries = []
      ∧ (fogContext.process emptyDisk "main.glsl".toList
          ("#version 330 core\n".toList ++ "void main()\x7b\x7d\n".toList)).result
        = .ok "#version 330\n#line 1\n#line 2\nvoid main()\x7b\x7d\n".toList
      ∧ (fogContext.process emptyDisk "main.glsl".toList
          ("#version 330 core\n".toList ++ "void main()\x7b\x7d\n".toList)).result
        ≠ .ok ("#version ".toList ++ fogContext.version ++ "\n#line 1\n".toList
            ++ "void main()\x7b\x7d\n".toList) := by
  have h : (fogContext.process emptyDisk "main.glsl".toList
      ("#version 330 core\n".toList ++ "void main()\x7b\x7d\n".toList)).result
      = .ok "#version 330\n#line 1\n#line 2\nvoid main()\x7b\x7d\n".toList := by
    rw [process_eq_fold]
    rfl
  refine ⟨by decide, rfl, h, ?_⟩
  rw [h]
  intro hne
  injection hne with hne
  exact absurd hne (by decide)

/-- C4, amended. A line that starts with `#` and whose directive text contains `version` and
not `include` is replaced in the output by the single marker `#line k+1`, where `k` is the
number of the line, and the lines after it are still processed: for `k-1` copied lines `a`,
such a line `l` and copied lines `b`, the output is the preamble, `a`, `#line k+1`, `b`. -/
theorem version_line_replaced (self : GLSLExtension) (disk : Disk) (file a l b : Str) (k : Nat)
    (ha : a = [] ∨ a.getLast? = some '\n')
    (hk : (lines a).length + 1 = k)
    (hap : ∀ x ∈ lines a, consumed x = false)
    (hl : IsLine l) (hlb : b = [] ∨ l.getLast? = some '\n')
    (hhash : l.head? = some '#')
    (hver : std.contains (directive l) "version".toList = true)
    (hinc : std.contains (directive l) "include".toList = false)
    (hbp : ∀ x ∈ lines b, consumed x = false)
    (hrange : k + 1 < UINT_MOD) :
    (self.process disk file (a ++ l ++ b)).result
      = .ok ("#version ".toList ++ self.version ++ ['\n']
          ++ (self.defines.entries.map
              (fun e => "#define ".toList ++ e.1 ++ [' '] ++ e.2 ++ ['\n'])).flatten
          ++ "#line 1\n".toList ++ a
          ++ "#line ".toList ++ std.to_string (k + 1) ++ "\n".toList ++ b) := by
  have hv : takesVersion l = true := by
    unfold takesVersion
    rw [hhash, hver, hinc]
    rfl
  exact process_around_version self disk file a l b k ha hk hap hl hlb hv hbp hrange

theorem version_line_replaced_witness :
    (fogContext.process emptyDisk "main.glsl".toList
      ([] ++ "#version 330 core\n".toList ++ "void main()\x7b\x7d\n".toList)).result
      = .ok ("#version ".toList ++ fogContext.version ++ ['\n']
          ++ (fogContext.defines.entries.map
              (fun e => "#define ".toList ++ e.1 ++ [' '] ++ e.2 ++ ['\n'])).flatten
          ++ "#line 1\n".toList ++ []
          ++ "#line ".toList ++ std.to_string (1 + 1) ++ "\n".toList
          ++ "void main()\x7b\x7d\n".toList) :=
  version_line_replaced fogContext emptyDisk "main.glsl".toList [] "#version 330 core\n".toList
    "void main()\x7b\x7d\n".toList 1 (Or.inl rfl) rfl (by decide) (by decide)
    (Or.inr (by decide)) (by decide) (by decide) (by decide) (by decide) (by decide)

/-- C3, as stated, fails: in `#pragma include <fog>` the directive text is `pragma ` (which
does not contain `include`), then `include`, then ` <fog>`, and `fog` is stored, yet `process`
raises the syntax error of line 113 instead of writing the header; the same happens for
`#  xinclude <fog>`. -/
theorem pragma_include_counterexample :
    ("#pragma include <fog>".toList).head? = some '#'
      ∧ directive "#pragma include <fog>".toList
        = "pragma ".toList ++ "include".toList ++ " <fog>".toList
      ∧ std.contains "pragma ".toList "include".toList = false
      ∧ util.trim " <fog>".toList = "<".toList ++ "fog".toList ++ ">".toList
      ∧ fogContext.headers.find "fog".toList = some "float fogFactor;\n".toList
      ∧ (fogContext.process emptyDisk "main.glsl".toList "#pragma include <fog>".toList).result
        = .error (Error.parsing "main.glsl".toList 1
            "expected \x27#include <filename>\x27 syntax".toList)
      ∧ directive "#  xinclude <fog>".toList
        = "x".toList ++ "include".toList ++ " <fog>".toList
      ∧ (fogContext.process emptyDisk "main.glsl".toList "#  xinclude <fog>".toList).result
        = .error (Error.parsing "main.glsl".toList 1
            "expected \x27#include <filename>\x27 syntax".toList) := by
  refine ⟨by decide, by decide, by decide, by decide, by decide, ?_, by decide, ?_⟩
  · rw [process_eq_fold]
    rfl
  · rw [process_eq_fold]
    rfl

/-- C3, amended. For a line that starts with `#` and whose directive text starts with
`include` (nothing stands before the token), the include argument is the text after the token:
when that text, trimmed, is `<name>` with a non-empty stored `name`, `process` succeeds and
writes the header stored under `name` (shown for `k-1` copied lines `a` before the line and
copied lines `b` after it). -/
theorem include_token_first (self : GLSLExtension) (disk : Disk) (file a l b r name text : Str)
    (k : Nat)
    (ha : a = [] ∨ a.getLast? = some '\n')
    (hk : (lines a).length + 1 = k)
    (hap : ∀ x ∈ lines a, consumed x = false)
    (hl : IsLine l) (hlb : b = [] ∨ l.getLast? = some '\n')
    (hhash : l.head? = some '#')
    (hdir : directive l = "include".toList ++ r)
    (hr : util.trim r = '<' :: name ++ ['>'])
    (hname : name ≠ [])
    (hstored : self.headers.find name = some text)
    (hbp : ∀ x ∈ lines b, consumed x = false)
    (hrange : k + 1 < UINT_MOD) :
    (self.process disk file (a ++ l ++ b)).result
      = .ok ("#version ".toList ++ self.version ++ ['\n']
          ++ (self.defines.entries.map
              (fun e => "#define ".toList ++ e.1 ++ [' '] ++ e.2 ++ ['\n'])).flatten
          ++ "#line 1\n".toList ++ a
          ++ "#line 1\n".toList ++ text ++ "\n#line ".toList ++ std.to_string (k + 1)
          ++ "\n".toList ++ b) := by
  have hi : takesInclude l = true := by
    unfold takesInclude
    rw [hhash, hdir, contains_of_starts _ _ (by simp [List.isPrefixOf])]
    rfl
  have harg : includeArg l = '<' :: name ++ ['>'] := by
    unfold includeArg
    rw [hdir, ← hr]
    rfl
  have hc := classify_cached self disk l name text hi
    (by rw [harg]; exact malformed_brackets name hname)
    (by rw [harg]; exact nameOf_brackets name) hstored
  exact process_around_cached self disk file a l b name text k ha hk hap hl hlb hc hbp hrange

theorem include_token_first_witness :
    (fogContext.process emptyDisk "main.glsl".toList
      ([] ++ "#  include   <fog>  \n".toList ++ "void main()\x7b\x7d\n".toList)).result
      = .ok ("#version ".toList ++ fogContext.version ++ ['\n']
          ++ (fogContext.defines.entries.map
              (fun e => "#define ".toList ++ e.1 ++ [' '] ++ e.2 ++ ['\n'])).flatten
          ++ "#line 1\n".toList ++ []
          ++ "#line 1\n".toList ++ "float fogFactor;\n".toList ++ "\n#line ".toList
          ++ std.to_string (1 + 1) ++ "\n".toList ++ "void main()\x7b\x7d\n".toList) :=
  include_token_first fogContext emptyDisk "main.glsl".toList [] "#  include   <fog>  \n".toList
    "void main()\x7b\x7d\n".toList "   <fog>".toList "fog".toList "float fogFactor;\n".toList 1
    (Or.inl rfl) rfl (by decide) (by decide) (Or.inr (by decide)) (by decide) (by decide)
    (by decide) (by decide) (by decide) (by decide) (by decide)

theorem process_passthrough_witness :
    (∀ l ∈ lines "#define X 1\n  #include <fog>\n#ifdef X\nvoid main()\x7b\x7d".toList,
        l.head? ≠ some '#'
          ∨ (std.contains (directive l) "include".toList = false
            ∧ std.contains (directive l) "version".toList = false))
      ∧ ((fogContext.define "B".toList "2".toList).process emptyDisk "main.glsl".toList
          "#define X 1\n  #include <fog>\n#ifdef X\nvoid main()\x7b\x7d".toList).result
        = .ok ("#version ".toList ++ (fogContext.define "B".toList "2".toList).version ++ ['\n']
          ++ ((fogContext.define "B".toList "2".toList).defines.entries.map
              (fun e => "#define ".toList ++ e.1 ++ [' '] ++ e.2 ++ ['\n'])).flatten
          ++ "#line 1\n".toList
          ++ "#define X 1\n  #include <fog>\n#ifdef X\nvoid main()\x7b\x7d".toList) :=
  ⟨by decide, process_passthrough (fogContext.define "B".toList "2".toList) emptyDisk
    "main.glsl".toList "#define X 1\n  #include <fog>\n#ifdef X\nvoid main()\x7b\x7d".toList
    (by decide)⟩

/-! ## The define table -/

theorem findEntries_filter_self (es : List (Str × Str)) (name : Str) :
    StrMap.findEntries (es.filter (fun e => e.1 ≠ name)) name = none := by
  induction es with
  | nil => rfl
  | cons e t ih =>
    obtain ⟨k, v⟩ := e
    by_cases h : k = name
    · rw [List.filter_cons_of_neg (by simp [h])]
      exact ih
    · rw [List.filter_cons_of_pos (by simp [h])]
      simp only [StrMap.findEntries, h, if_false]
      exact ih

theorem findEntries_filter_other (es : List (Str × Str)) (name other : Str) (h : other ≠ name) :
    StrMap.findEntries (es.filter (fun e => e.1 ≠ name)) other = StrMap.findEntries es other := by
  induction es with
  | nil => rfl
  | cons e t ih =>
    obtain ⟨k, v⟩ := e
    by_cases hk : k = name
    · have hko : ¬ k = other := fun h' => h (h'.symm.trans hk)
      rw [List.filter_cons_of_neg (by simp [hk])]
      simp only [StrMap.findEntries, hko, if_false]
      exact ih
    · rw [List.filter_cons_of_pos (by simp [hk])]
      simp only [StrMap.findEntries]
      rw [ih]

theorem filter_of_find_none (es : List (Str × Str)) (name : Str)
    (h : StrMap.findEntries es name = none) : es.filter (fun e => e.1 ≠ name) = es := by
  induction es with
  | nil => rfl
  | cons e t ih =>
    obtain ⟨k, v⟩ := e
    by_cases hk : k = name
    · simp [StrMap.findEntries, hk] at h
    · simp only [StrMap.findEntries, hk, if_false] at h
      rw [List.filter_cons_of_pos (by simp [hk]), ih h]

/-- C8. The laws of the define table. After `define(n, v)`, `hasDefine(n)` holds and
`getDefine(n)` is `v`; after `undefine(n)`, `hasDefine(n)` fails and `getDefine(n)` is empty;
`getDefine(n)` is empty whenever `hasDefine(n)` fails; `undefine(n)` changes nothing when `n` is
not defined; and `define(n, v)` and `undefine(n)` leave `hasDefine(m)` and `getDefine(m)` as
they were for every other name `m`. -/
theorem define_table_laws (self : GLSLExtension) (n m v : Str) (hmn : m ≠ n) :
    ((self.define n v).hasDefine n = true ∧ (self.define n v).getDefine n = v)
      ∧ ((self.undefine n).hasDefine n = false ∧ (self.undefine n).getDefine n = [])
      ∧ (self.hasDefine n = false → self.getDefine n = [])
      ∧ (self.hasDefine n = false → self.undefine n = self)
      ∧ ((self.define n v).hasDefine m = self.hasDefine m
        ∧ (self.define n v).getDefine m = self.getDefine m)
      ∧ ((self.undefine n).hasDefine m = self.hasDefine m
        ∧ (self.undefine n).getDefine m = self.getDefine m) := by
  have hund : (self.undefine n).defines.find n = none := by
    unfold GLSLExtension.undefine
    by_cases h : self.hasDefine n = true
    · rw [if_pos h]
      exact findEntries_filter_self _ _
    · rw [if_neg h]
      unfold GLSLExtension.hasDefine at h
      cases hf : self.defines.find n with
      | none => rfl
      | some t => simp [hf] at h
  have hund_other : (self.undefine n).defines.find m = self.defines.find m := by
    unfold GLSLExtension.undefine
    by_cases h : self.hasDefine n = true
    · rw [if_pos h]
      exact findEntries_filter_other _ _ _ hmn
    · rw [if_neg h]
  have hdef_other : (self.define n v).defines.find m = self.defines.find m :=
    find_assign_other _ _ _ _ hmn
  refine ⟨⟨?_, ?_⟩, ⟨?_, ?_⟩, ?_, ?_, ⟨?_, ?_⟩, ⟨?_, ?_⟩⟩
  · simp [GLSLExtension.hasDefine, GLSLExtension.define, find_assign_self]
  · simp [GLSLExtension.getDefine, GLSLExtension.define, find_assign_self]
  · simp [GLSLExtension.hasDefine, hund]
  · simp [GLSLExtension.getDefine, hund]
  · intro h
    unfold GLSLExtension.hasDefine at h
    unfold GLSLExtension.getDefine
    cases hf : self.defines.find n with
    | none => rfl
    | some t => simp [hf] at h
  · intro h
    unfold GLSLExtension.undefine
    simp [h]
  · simp only [GLSLExtension.hasDefine, hdef_other]
  · simp only [GLSLExtension.getDefine, hdef_other]
  · simp only [GLSLExtension.hasDefine, hund_other]
  · simp only [GLSLExtension.getDefine, hund_other]

theorem define_table_laws_witness :
    "A".toList ≠ "B".toList
      ∧ (((fogContext.define "A".toList "1".toList).define "B".toList "2".toList).hasDefine
            "B".toList = true
          ∧ ((fogContext.define "A".toList "1".toList).define "B".toList "2".toList).getDefine
            "B".toList = "2".toList)
      ∧ (((fogContext.define "A".toList "1".toList).undefine "B".toList).hasDefine
            "B".toList = false
          ∧ ((fogContext.define "A".toList "1".toList).undefine "B".toList).getDefine
            "B".toList = [])
      ∧ ((fogContext.define "A".toList "1".toList).hasDefine "B".toList = false
          → (fogContext.define "A".toList "1".toList).getDefine "B".toList = [])
      ∧ ((fogContext.define "A".toList "1".toList).hasDefine "B".toList = false
          → (fogContext.define "A".toList "1".toList).undefine "B".toList
            = fogContext.define "A".toList "1".toList)
      ∧ (((fogContext.define "A".toList "1".toList).define "B".toList "2".toList).hasDefine
            "A".toList = (fogContext.define "A".toList "1".toList).hasDefine "A".toList
          ∧ ((fogContext.define "A".toList "1".toList).define "B".toList "2".toList).getDefine
            "A".toList = (fogContext.define "A".toList "1".toList).getDefine "A".toList)
      ∧ (((fogContext.define "A".toList "1".toList).undefine "B".toList).hasDefine
            "A".toList = (fogContext.define "A".toList "1".toList).hasDefine "A".toList
          ∧ ((fogContext.define "A".toList "1".toList).undefine "B".toList).getDefine
            "A".toList = (fogContext.define "A".toList "1".toList).getDefine "A".toList) :=
  ⟨by decide, define_table_laws (fogContext.define "A".toList "1".toList) "B".toList "A".toList
    "2".toList (by decide)⟩

/-! ## Key order of the define table -/

theorem mem_assignEntries (es : List (Str × Str)) (name value : Str) (e : Str × Str)
    (h : e ∈ StrMap.assignEntries es name value) : e = (name, value) ∨ e ∈ es := by
  induction es with
  | nil =>
    simp only [StrMap.assignEntries, List.mem_singleton] at h
    exact Or.inl h
  | cons e0 t ih =>
    obtain ⟨k, v⟩ := e0
    unfold StrMap.assignEntries at h
    by_cases h1 : name < k
    · simp only [h1, if_true, List.mem_cons] at h
      rcases h with h | h | h
      · exact Or.inl h
      · exact Or.inr (by simp [h])
      · exact Or.inr (List.mem_cons_of_mem _ h)
    · by_cases h2 : name = k
      · subst h2
        simp only [h1, if_true, if_false, List.mem_cons] at h
        rcases h with h | h
        · exact Or.inl h
        · exact Or.inr (List.mem_cons_of_mem _ h)
      · simp only [h1, h2, if_false, List.mem_cons] at h
        rcases h with h | h
        · exact Or.inr (by simp [h])
        · rcases ih h with h' | h'
          · exact Or.inl h'
          · exact Or.inr (List.mem_cons_of_mem _ h')

theorem assignEntries_sorted (es : List (Str × Str)) (name value : Str)
    (h : es.Pairwise (fun p q => p.1 < q.1)) :
    (StrMap.assignEntries es name value).Pairwise (fun p q => p.1 < q.1) := by
  induction es with
  | nil => simp [StrMap.assignEntries]
  | cons e0 t ih =>
    obtain ⟨k, v⟩ := e0
    rw [List.pairwise_cons] at h
    unfold StrMap.assignEntries
    by_cases h1 : name < k
    · simp only [h1, if_true]
      refine List.Pairwise.cons ?_ (List.Pairwise.cons h.1 h.2)
      intro e he
      rcases List.mem_cons.mp he with rfl | he
      · exact h1
      · exact lt_trans h1 (h.1 e he)
    · by_cases h2 : name = k
      · subst h2
        simp only [h1, if_true, if_false]
        exact List.Pairwise.cons (fun e he => h.1 e he) h.2
      · simp only [h1, h2, if_false]
        refine List.Pairwise.cons ?_ (ih h.2)
        intro e he
        rcases mem_assignEntries t name value e he with rfl | he
        · rcases lt_trichotomy name k with h3 | h3 | h3
          · exact absurd h3 h1
          · exact absurd h3 h2
          · exact h3
        · exact h.1 e he

theorem applyKind_ss (file l : Str) (st s : Run) (kind : Kind)
    (h : applyKind file l st kind = .done s) : ∃ added, s.ss = st.ss ++ added := by
  cases kind <;> simp only [applyKind, Exit.done.injEq] at h <;> first
    | exact ⟨_, by rw [← h]⟩
    | exact absurd h (by simp)

theorem foldLines_ss (disk : Disk) (file : Str) (ls : List Str) (st s : Run)
    (hl : ∀ l ∈ ls, IsLine l) (h : foldLines disk file ls st = .done s) :
    ∃ added, s.ss = st.ss ++ added := by
  induction ls generalizing st with
  | nil =>
    simp only [foldLines, Exit.done.injEq] at h
    exact ⟨[], by rw [h]; simp⟩
  | cons l t ih =>
    simp only [foldLines] at h
    rw [lineStep_eq_applyKind disk file l st (hl l (List.mem_cons_self _ _))] at h
    cases hk : applyKind file l st (classify st.self disk l) with
    | thrown e s1 => simp [hk] at h
    | done s1 =>
      rw [hk] at h
      obtain ⟨add1, h1⟩ := applyKind_ss file l st s1 _ hk
      obtain ⟨add2, h2⟩ := ih s1 (fun x hx => hl x (List.mem_cons_of_mem _ hx)) h
      exact ⟨add1 ++ add2, by rw [h2, h1, List.append_assoc]⟩

/-- Whatever the source, a successful `process` returns a text that starts with the preamble:
the version line, the define lines in the order of the table, and `#line 1`. -/
theorem process_starts_with_preamble (self : GLSLExtension) (disk : Disk) (file source out : Str)
    (h : (self.process disk file source).result = .ok out) :
    ∃ rest, out = "#version ".toList ++ self.version ++ ['\n']
        ++ (self.defines.entries.map
            (fun e => "#define ".toList ++ e.1 ++ [' '] ++ e.2 ++ ['\n'])).flatten
        ++ "#line 1\n".toList ++ rest := by
  rw [process_eq_fold] at h
  cases hf : foldLines disk file (lines source)
      { self := self
        ss := [.version self.version]
          ++ self.defines.entries.map (fun entry => Piece.define entry.1 entry.2)
          ++ [.marker 1]
        cerr := []
        loads := []
        linenum := 1 } with
  | thrown e s =>
    rw [hf] at h
    simp at h
  | done s =>
    rw [hf] at h
    simp only [Except.ok.injEq] at h
    obtain ⟨added, ha⟩ := foldLines_ss disk file (lines source) _ s (lines_isLine source) hf
    refine ⟨str added, ?_⟩
    rw [← h, ha, str_append, str_preamble]

theorem process_empty (self : GLSLExtension) (disk : Disk) (file : Str) :
    (self.process disk file []).result = .ok ("#version ".toList ++ self.version ++ ['\n']
        ++ (self.defines.entries.map
            (fun e => "#define ".toList ++ e.1 ++ [' '] ++ e.2 ++ ['\n'])).flatten
        ++ "#line 1\n".toList) := by
  rw [process_eq_fold]
  simp only [lines, foldLines]
  rw [str_preamble]

theorem defines_sorted_foldl (calls : List (Str × Str)) (self : GLSLExtension)
    (h : self.defines.entries.Pairwise (fun p q => p.1 < q.1)) :
    (calls.foldl (fun c p => c.define p.1 p.2) self).defines.entries.Pairwise
      (fun p q => p.1 < q.1) := by
  induction calls generalizing self with
  | nil => exact h
  | cons p t ih =>
    simp only [List.foldl_cons]
    apply ih
    exact assignEntries_sorted _ _ _ h

/-- C6. The define lines of the preamble follow the define table, whose entries are in ascending
key order whatever the order of the calls of `define`. Starting from an empty table: after any
sequence of calls the keys are strictly ascending; for `a < b`, `define(b, y)` then
`define(a, x)` and `define(a, x)` then `define(b, y)` give the same table, `a` first; and on both
contexts `process` returns a text that starts with the version line, `#define a x`,
`#define b y` and `#line 1` (and is exactly that for the empty source). -/
theorem define_key_order (self : GLSLExtension) (disk : Disk) (file a b x y : Str)
    (hempty : self.defines.entries = []) (hab : a < b) :
    (∀ calls : List (Str × Str),
        (calls.foldl (fun c p => c.define p.1 p.2) self).defines.entries.Pairwise
          (fun p q => p.1 < q.1))
      ∧ ((self.define b y).define a x).defines.entries = [(a, x), (b, y)]
      ∧ ((self.define a x).define b y).defines.entries = [(a, x), (b, y)]
      ∧ (∀ c : GLSLExtension, c = (self.define b y).define a x ∨ c = (self.define a x).define b y →
          (c.process disk file []).result
              = .ok ("#version ".toList ++ self.version ++ ['\n']
                  ++ "#define ".toList ++ a ++ [' '] ++ x ++ ['\n']
                  ++ "#define ".toList ++ b ++ [' '] ++ y ++ ['\n']
                  ++ "#line 1\n".toList)
            ∧ ∀ source out, (c.process disk file source).result = .ok out →
              ∃ rest, out = "#version ".toList ++ self.version ++ ['\n']
                  ++ "#define ".toList ++ a ++ [' '] ++ x ++ ['\n']
                  ++ "#define ".toList ++ b ++ [' '] ++ y ++ ['\n']
                  ++ "#line 1\n".toList ++ rest) := by
  have hba : ¬ b < a := lt_asymm hab
  have hne : ¬ b = a := fun h => lt_irrefl a (h ▸ hab)
  have e1 : ((self.define b y).define a x).defines.entries = [(a, x), (b, y)] := by
    simp [GLSLExtension.define, StrMap.assign, StrMap.assignEntries, hempty, hab]
  have e2 : ((self.define a x).define b y).defines.entries = [(a, x), (b, y)] := by
    simp [GLSLExtension.define, StrMap.assign, StrMap.assignEntries, hempty, hba, hne]
  have v1 : ((self.define b y).define a x).version = self.version := rfl
  have v2 : ((self.define a x).define b y).version = self.version := rfl
  refine ⟨fun calls => defines_sorted_foldl calls self (by rw [hempty]; exact List.Pairwise.nil),
    e1, e2, ?_⟩
  intro c hc
  have ec : c.defines.entries = [(a, x), (b, y)] ∧ c.version = self.version := by
    rcases hc with rfl | rfl
    · exact ⟨e1, v1⟩
    · exact ⟨e2, v2⟩
  constructor
  · rw [process_empty, ec.1, ec.2]
    simp
  · intro source out h
    obtain ⟨rest, hr⟩ := process_starts_with_preamble c disk file source out h
    refine ⟨rest, ?_⟩
    rw [hr, ec.1, ec.2]
    simp

theorem define_key_order_witness :
    "A".toList < "B".toList
      ∧ ((fogContext.define "B".toList "2".toList).define "A".toList "1".toList).defines.entries
        = [("A".toList, "1".toList), ("B".toList, "2".toList)]
      ∧ (((fogContext.define "B".toList "2".toList).define "A".toList "1".toList).process
          emptyDisk "main.glsl".toList []).result
        = .ok ("#version ".toList ++ fogContext.version ++ ['\n']
            ++ "#define ".toList ++ "A".toList ++ [' '] ++ "1".toList ++ ['\n']
            ++ "#define ".toList ++ "B".toList ++ [' '] ++ "2".toList ++ ['\n']
            ++ "#line 1\n".toList) :=
  ⟨by decide,
    (define_key_order fogContext emptyDisk "main.glsl".toList "A".toList "B".toList "1".toList
      "2".toList rfl (by decide)).2.1,
    ((define_key_order fogContext emptyDisk "main.glsl".toList "A".toList "B".toList "1".toList
      "2".toList rfl (by decide)).2.2.2 _ (Or.inl rfl)).1⟩

/-! ## Trimming -/

theorem rtrim_append_space (x e : Str) (he : ∀ c ∈ e, std.isspace c = true) :
    util.rtrim (x ++ e) = util.rtrim x := by
  unfold util.rtrim
  rw [List.reverse_append, List.dropWhile_append_of_pos (fun c hc => he c (List.mem_reverse.mp hc))]

theorem rtrim_append_nonspace (u : Str) (c : Char) (v : Str) (hc : std.isspace c = false) :
    util.rtrim (u ++ c :: v) = u ++ c :: util.rtrim v := by
  unfold util.rtrim
  have hrev : (u ++ c :: v).reverse = v.reverse ++ c :: u.reverse := by simp
  have hcn : ¬ std.isspace c = true := by simp [hc]
  rw [hrev, List.dropWhile_append]
  split
  · rename_i hnil
    have : v.reverse.dropWhile std.isspace = [] := List.isEmpty_iff.mp hnil
    rw [List.dropWhile_cons_of_neg hcn, this]
    simp
  · simp

theorem ltrim_spaces (ws : Str) (c : Char) (v : Str) (hws : ∀ a ∈ ws, std.isspace a = true)
    (hc : std.isspace c = false) : util.ltrim (ws ++ c :: v) = c :: v := by
  unfold util.ltrim
  have hcn : ¬ std.isspace c = true := by simp [hc]
  rw [List.dropWhile_append_of_pos hws, List.dropWhile_cons_of_neg hcn]

theorem rtrim_idem (v : Str) : util.rtrim (util.rtrim v) = util.rtrim v := by
  unfold util.rtrim
  rw [List.reverse_reverse, List.dropWhile_idempotent]

/-- The line `#`, whitespace, `include`, `rest`, with or without its newline: it takes the
include branch and its include argument is `rest`, trimmed. -/
theorem include_form_facts (ws rest e : Str)
    (hws : ∀ c ∈ ws, std.isspace c = true ∧ c ≠ '\n')
    (hrest : '\n' ∉ rest) (he : e = [] ∨ e = ['\n']) :
    IsLine ('#' :: ws ++ "include".toList ++ rest ++ e)
      ∧ takesInclude ('#' :: ws ++ "include".toList ++ rest ++ e) = true
      ∧ includeArg ('#' :: ws ++ "include".toList ++ rest ++ e) = util.trim rest := by
  have hespace : ∀ c ∈ e, std.isspace c = true := by
    rcases he with rfl | rfl
    · simp
    · intro c hc
      simp only [List.mem_singleton] at hc
      subst hc
      decide
  have hbody : '\n' ∉ '#' :: ws ++ "include".toList ++ rest := by
    intro hmem
    simp only [List.cons_append, List.mem_cons, List.mem_append] at hmem
    rcases hmem with h | (h | h) | h
    · exact absurd h (by decide)
    · exact (hws _ h).2 rfl
    · revert h
      decide
    · exact hrest h
  have hd : directive ('#' :: ws ++ "include".toList ++ rest ++ e)
      = "include".toList ++ util.rtrim rest := by
    have e1 : ('#' :: ws ++ "include".toList ++ rest ++ e).drop 1
        = ((ws ++ "includ".toList) ++ 'e' :: rest) ++ e := by
      simp
    unfold directive util.trim
    rw [e1, rtrim_append_space _ _ hespace, rtrim_append_nonspace _ _ _ (by decide)]
    have e2 : ws ++ "includ".toList ++ 'e' :: util.rtrim rest
        = ws ++ 'i' :: ("nclude".toList ++ util.rtrim rest) := by
      simp
    rw [e2, ltrim_spaces _ _ _ (fun a ha => (hws a ha).1) (by decide)]
    rfl
  refine ⟨?_, ?_, ?_⟩
  · rcases he with rfl | rfl
    · rw [List.append_nil]
      exact isLine_no_newline _ (by simp) hbody
    · exact isLine_newline_end _ hbody
  · unfold takesInclude
    rw [hd, contains_of_starts _ _ (by simp [List.isPrefixOf])]
    rfl
  · unfold includeArg
    rw [hd]
    have : std.substr_from ("include".toList ++ util.rtrim rest) 7 = util.rtrim rest := rfl
    rw [this]
    unfold util.trim
    rw [rtrim_idem]

/-! ## Lines that do not take the include branch -/

theorem classify_no_include (self : GLSLExtension) (disk : Disk) (l : Str)
    (h : takesInclude l = false) :
    classify self disk l = .passed ∨ classify self disk l = .version := by
  by_cases hv : takesVersion l = true
  · exact Or.inr (classify_version self disk l hv)
  · left
    apply classify_passed
    unfold consumed
    simp [h, hv]

theorem foldLines_no_include (disk : Disk) (file : Str) (ls : List Str) (st : Run)
    (hl : ∀ l ∈ ls, IsLine l) (hni : ∀ l ∈ ls, takesInclude l = false)
    (hlt : st.linenum < UINT_MOD) :
    ∃ s, foldLines disk file ls st = .done s ∧ s.self = st.self ∧ s.loads = st.loads
      ∧ s.linenum = (st.linenum + ls.length) % UINT_MOD := by
  induction ls generalizing st with
  | nil => exact ⟨st, rfl, rfl, rfl, by simp [Nat.mod_eq_of_lt hlt]⟩
  | cons l t ih =>
    simp only [foldLines]
    rw [lineStep_eq_applyKind disk file l st (hl l (List.mem_cons_self _ _))]
    have e : st.linenum + 1 + t.length = st.linenum + (t.length + 1) := by omega
    rcases classify_no_include st.self disk l (hni l (List.mem_cons_self _ _)) with hc | hc
    · rw [hc]
      simp only [applyKind]
      obtain ⟨s, h1, h2, h3, h4⟩ := ih
        { st with
          linenum := (st.linenum + 1) % UINT_MOD
          ss := st.ss ++ [.passed l] }
        (fun x hx => hl x (List.mem_cons_of_mem _ hx))
        (fun x hx => hni x (List.mem_cons_of_mem _ hx))
        (Nat.mod_lt _ (show 0 < UINT_MOD by decide))
      refine ⟨s, h1, h2, h3, ?_⟩
      rw [h4]
      simp only [Nat.mod_add_mod, List.length_cons, e]
    · rw [hc]
      simp only [applyKind]
      obtain ⟨s, h1, h2, h3, h4⟩ := ih
        { st with
          cerr := st.cerr
            ++ [parsing_warning file st.linenum "removed #version directive".toList]
          linenum := (st.linenum + 1) % UINT_MOD
          ss := st.ss ++ [.restore ((st.linenum + 1) % UINT_MOD)] }
        (fun x hx => hl x (List.mem_cons_of_mem _ hx))
        (fun x hx => hni x (List.mem_cons_of_mem _ hx))
        (Nat.mod_lt _ (show 0 < UINT_MOD by decide))
      refine ⟨s, h1, h2, h3, ?_⟩
      rw [h4]
      simp only [Nat.mod_add_mod, List.length_cons, e]

/-! ## Where a syntax error can come from -/

theorem fetch_error_not_parsing (paths : ResPaths) (disk : Disk) (name : Str) (e : Error)
    (h : fetch paths disk name = .error e) (file : Str) (n : Nat) (m : Str) :
    e ≠ Error.parsing file n m := by
  unfold fetch at h
  cases hf : paths.find ("shaders/lib/".toList ++ name ++ ".glsl".toList) with
  | error msg =>
    rw [hf] at h
    simp only [Except.error.injEq] at h
    rw [← h]
    simp
  | ok f =>
    rw [hf] at h
    unfold files.read_string at h
    dsimp only at h
    cases hr : files.read_bytes disk f with
    | none =>
      rw [hr] at h
      simp only [Except.error.injEq] at h
      rw [← h]
      simp
    | some bytes =>
      rw [hr] at h
      simp at h

theorem classify_failed_fetch (self : GLSLExtension) (disk : Disk) (l name : Str) (e : Error)
    (h : classify self disk l = .failed name e) : fetch self.paths disk name = .error e := by
  unfold classify at h
  split at h
  · split at h
    · simp at h
    · split at h
      · simp at h
      · split at h
        · simp at h
        · split at h
          · simp at h
          · rename_i e0 hf
            simp only [Kind.failed.injEq] at h
            rw [← h.1, ← h.2]
            exact hf
  · split at h <;> simp at h

theorem applyKind_linenum (file l : Str) (st s : Run) (kind : Kind)
    (h : applyKind file l st kind = .done s) : s.linenum = (st.linenum + 1) % UINT_MOD := by
  cases kind <;> simp only [applyKind, Exit.done.injEq] at h <;> first
    | (rw [← h])
    | exact absurd h (by simp)

/-- A syntax error raised while the lines `ls` are processed carries the number of one of these
lines, as long as the numbers stay in the range of `uint`. -/
theorem thrown_parsing_range (disk : Disk) (file : Str) (ls : List Str) (st s : Run)
    (f m : Str) (n : Nat)
    (hl : ∀ l ∈ ls, IsLine l)
    (hrange : st.linenum + ls.length ≤ UINT_MOD)
    (h : foldLines disk file ls st = .thrown (Error.parsing f n m) s) :
    st.linenum ≤ n ∧ n < st.linenum + ls.length := by
  induction ls generalizing st with
  | nil => simp [foldLines] at h
  | cons l t ih =>
    simp only [foldLines] at h
    rw [lineStep_eq_applyKind disk file l st (hl l (List.mem_cons_self _ _))] at h
    simp only [List.length_cons] at hrange ⊢
    cases hk : applyKind file l st (classify st.self disk l) with
    | thrown e s1 =>
      rw [hk] at h
      simp only [Exit.thrown.injEq] at h
      cases hc : classify st.self disk l with
      | passed => rw [hc] at hk; simp [applyKind] at hk
      | version => rw [hc] at hk; simp [applyKind] at hk
      | cached a b => rw [hc] at hk; simp [applyKind] at hk
      | loaded a b => rw [hc] at hk; simp [applyKind] at hk
      | bad msg =>
        rw [hc] at hk
        simp only [applyKind, Exit.thrown.injEq] at hk
        have := hk.1.trans h.1
        simp only [Error.parsing.injEq] at this
        omega
      | failed name e0 =>
        rw [hc] at hk
        simp only [applyKind, Exit.thrown.injEq] at hk
        have hfe := classify_failed_fetch _ _ _ _ _ hc
        exact absurd (hk.1.trans h.1) (fetch_error_not_parsing _ _ _ _ hfe f n m)
    | done s1 =>
      rw [hk] at h
      have hln := applyKind_linenum _ _ _ _ _ hk
      cases t with
      | nil => simp [foldLines] at h
      | cons l2 t2 =>
        simp only [List.length_cons] at hrange
        have hlt : (st.linenum + 1) % UINT_MOD = st.linenum + 1 := Nat.mod_eq_of_lt (by omega)
        rw [hlt] at hln
        have := ih s1 (fun x hx => hl x (List.mem_cons_of_mem _ hx))
          (by rw [hln]; simp only [List.length_cons]; omega) h
        rw [hln] at this
        simp only [List.length_cons] at this ⊢
        omega

theorem lines_split (p l b : Str) (hp : p = [] ∨ p.getLast? = some '\n') (hl : IsLine l)
    (hb : b = [] ∨ l.getLast? = some '\n') : lines (p ++ l ++ b) = lines p ++ l :: lines b := by
  rw [List.append_assoc, lines_append p _ hp]
  congr 1
  rcases hb with rfl | hb
  · simp [lines, lines_single l hl]
  · rw [lines_append l _ (Or.inr hb), lines_single l hl]
    rfl

theorem classify_bad (self : GLSLExtension) (disk : Disk) (l : Str)
    (hi : takesInclude l = true) (hm : malformed (includeArg l) = true) :
    classify self disk l = .bad (if (includeArg l).length < 3
      then "invalid \x27include\x27 syntax".toList
      else "expected \x27#include <filename>\x27 syntax".toList) := by
  unfold classify
  simp only [hi, if_true]
  by_cases h3 : (includeArg l).length < 3
  · simp only [h3, if_true]
  · have h4 : (includeArg l).head? ≠ some '<' ∨ (includeArg l).getLast? ≠ some '>' := by
      unfold malformed at hm
      simp only [Bool.or_eq_true, decide_eq_true_eq] at hm
      rcases hm with (h | h) | h
      · exact absurd h h3
      · exact Or.inl h
      · exact Or.inr h
    simp only [h3, h4, if_true, if_false]

theorem classify_wellformed (self : GLSLExtension) (disk : Disk) (l : Str)
    (hi : takesInclude l = true) (hm : malformed (includeArg l) = false) :
    (∃ text, classify self disk l = .cached (nameOf (includeArg l)) text)
      ∨ (∃ text, classify self disk l = .loaded (nameOf (includeArg l)) text)
      ∨ (∃ e, classify self disk l = .failed (nameOf (includeArg l)) e) := by
  unfold malformed at hm
  simp only [Bool.or_eq_false_iff, decide_eq_false_iff_not, not_not, Nat.not_lt] at hm
  obtain ⟨⟨h1, h2⟩, h3⟩ := hm
  have h1' : ¬ (includeArg l).length < 3 := by omega
  have h4 : ¬ ((includeArg l).head? ≠ some '<' ∨ (includeArg l).getLast? ≠ some '>') := by
    simp [h2, h3]
  unfold classify
  simp only [hi, h1', h4, if_true, if_false]
  cases self.headers.find (nameOf (includeArg l)) with
  | some text => exact Or.inl ⟨text, rfl⟩
  | none =>
    cases fetch self.paths disk (nameOf (includeArg l)) with
    | ok text => exact Or.inr (Or.inl ⟨text, rfl⟩)
    | error e => exact Or.inr (Or.inr ⟨e, rfl⟩)

/-- The state of the loop after lines none of which takes the include branch. -/
theorem run_no_include (self : GLSLExtension) (disk : Disk) (file p : Str)
    (hfirst : ∀ l ∈ lines p, takesInclude l = false) :
    ∃ s, self.run disk file p = .done s ∧ s.self = self ∧ s.loads = []
      ∧ s.linenum = (1 + (lines p).length) % UINT_MOD := by
  rw [run_eq_foldLines]
  exact foldLines_no_include disk file (lines p) _ (lines_isLine p) hfirst
    (show (1 : Nat) < UINT_MOD by decide)

theorem process_result_of_run (self : GLSLExtension) (disk : Disk) (file source : Str) :
    (self.process disk file source).result =
      match self.run disk file source with
      | .done st => .ok (str st.ss)
      | .thrown e _ => .error e := by
  unfold GLSLExtension.process
  cases self.run disk file source <;> rfl

theorem include_check_core (self : GLSLExtension) (disk : Disk) (file p ws rest e b : Str)
    (k : Nat)
    (hp : p = [] ∨ p.getLast? = some '\n')
    (hk : (lines p).length + 1 = k)
    (hfirst : ∀ l ∈ lines p, takesInclude l = false)
    (hws : ∀ c ∈ ws, std.isspace c = true ∧ c ≠ '\n')
    (hrest : '\n' ∉ rest)
    (he : e = [] ∨ e = ['\n']) (hb : b = [] ∨ e = ['\n'])
    (hrange : k + (lines b).length + 1 < UINT_MOD) :
    (malformed (util.trim rest) = true →
        (self.process disk file (p ++ ('#' :: ws ++ "include".toList ++ rest ++ e) ++ b)).result
          = .error (parsing_error file k (if (util.trim rest).length < 3
              then "invalid \x27include\x27 syntax".toList
              else "expected \x27#include <filename>\x27 syntax".toList)))
      ∧ (malformed (util.trim rest) = false → ∀ m,
        (self.process disk file (p ++ ('#' :: ws ++ "include".toList ++ rest ++ e) ++ b)).result
          ≠ .error (parsing_error file k m))
      ∧ (malformed (util.trim rest) = false → ∀ text outp,
        self.headers.find (nameOf (util.trim rest)) = some text →
        (∀ x ∈ lines b, consumed x = false) →
        (self.process disk file p).result = .ok outp →
        (self.process disk file (p ++ ('#' :: ws ++ "include".toList ++ rest ++ e) ++ b)).result
          = .ok (outp ++ "#line 1\n".toList ++ text ++ "\n#line ".toList
              ++ std.to_string (k + 1) ++ "\n".toList ++ b)) := by
  obtain ⟨hl, hi, harg⟩ := include_form_facts ws rest e hws hrest he
  have hlb : b = [] ∨ ('#' :: ws ++ "include".toList ++ rest ++ e).getLast? = some '\n' := by
    rcases hb with h | h
    · exact Or.inl h
    · right
      rw [h]
      exact List.getLast?_concat _
  obtain ⟨s, hrun, hself, hloads, hln⟩ := run_no_include self disk file p hfirst
  have hlnk : s.linenum = k := by
    rw [hln, Nat.mod_eq_of_lt (by omega)]
    omega
  have hsplit := run_split self disk file p _ b hp hl hlb
  rw [hrun] at hsplit
  simp only [hself] at hsplit
  refine ⟨?_, ?_, ?_⟩
  · intro hm
    rw [← harg] at hm
    rw [process_result_of_run, hsplit, classify_bad self disk _ hi hm, harg]
    simp only [applyKind, hlnk, parsing_error]
  · intro hm m
    rw [← harg] at hm
    rw [process_result_of_run, hsplit]
    rcases classify_wellformed self disk _ hi hm with ⟨t, hc⟩ | ⟨t, hc⟩ | ⟨e0, hc⟩
    · rw [hc]
      simp only [applyKind]
      cases hfold : foldLines disk file (lines b) _ with
      | done s2 => simp
      | thrown e2 s2 =>
        simp only [ne_eq, Except.error.injEq, parsing_error]
        intro heq
        rw [heq] at hfold
        cases hbl : lines b with
        | nil =>
          rw [hbl] at hfold
          simp [foldLines] at hfold
        | cons x t2 =>
          rw [hbl] at hrange
          simp only [List.length_cons] at hrange
          have hr := thrown_parsing_range disk file (lines b) _ s2 file m k (lines_isLine b)
            (by
              simp only [hlnk, hbl, List.length_cons]
              rw [Nat.mod_eq_of_lt (by omega)]
              omega) hfold
          simp only [hlnk] at hr
          rw [Nat.mod_eq_of_lt (by omega)] at hr
          omega
    · rw [hc]
      simp only [applyKind]
      cases hfold : foldLines disk file (lines b) _ with
      | done s2 => simp
      | thrown e2 s2 =>
        simp only [ne_eq, Except.error.injEq, parsing_error]
        intro heq
        rw [heq] at hfold
        cases hbl : lines b with
        | nil =>
          rw [hbl] at hfold
          simp [foldLines] at hfold
        | cons x t2 =>
          rw [hbl] at hrange
          simp only [List.length_cons] at hrange
          have hr := thrown_parsing_range disk file (lines b) _ s2 file m k (lines_isLine b)
            (by
              simp only [hlnk, hbl, List.length_cons]
              rw [Nat.mod_eq_of_lt (by omega)]
              omega) hfold
          simp only [hlnk] at hr
          rw [Nat.mod_eq_of_lt (by omega)] at hr
          omega
    · rw [hc]
      simp only [applyKind, ne_eq, Except.error.injEq, parsing_error]
      exact fetch_error_not_parsing _ _ _ _ (classify_failed_fetch _ _ _ _ _ hc) file k m
  · intro hm text outp hfind hbp hpout
    rw [← harg] at hm hfind
    rw [process_result_of_run, hrun] at hpout
    simp only [Except.ok.injEq] at hpout
    rw [process_result_of_run, hsplit,
      classify_cached self disk _ _ text hi hm rfl hfind]
    simp only [applyKind]
    rw [foldLines_passed disk file (lines b) _ (lines_isLine b) hbp
      (Nat.mod_lt _ (show 0 < UINT_MOD by decide))]
    simp only [hlnk]
    rw [Nat.mod_eq_of_lt (show k + 1 < UINT_MOD by omega)]
    rw [str_append, str_append, str_passed_lines, hpout]
    simp only [str, List.map_cons, List.map_nil, Piece.text, List.flatten_cons,
      List.flatten_nil, List.append_nil]
    have h1 : source_line 1 = "#line 1\n".toList := by decide
    rw [h1]
    simp [source_line]

theorem malformed_iff (arg : Str) :
    malformed arg = true ↔ (arg.length < 3 ∨ arg.head? ≠ some '<' ∨ arg.getLast? ≠ some '>') := by
  unfold malformed
  simp only [Bool.or_eq_true, decide_eq_true_eq, or_assoc]

/-- The text of `what()` for the exception built by `parsing_error` (lines 70-71): the file
identifier, the message and the decimal line number. -/
theorem parsing_error_what (file message : Str) (linenum : Nat) :
    (parsing_error file linenum message).what
      = "file ".toList ++ file ++ ": ".toList ++ message ++ " at line ".toList
        ++ (Nat.repr linenum).toList := rfl

/-- C2. Let the `k`-th line of a source be the first that takes the include branch, and let it
be `#`, optional whitespace, `include`, `rest` (the source having fewer than `2^32 - 1` lines).
Then `process` fails with the exception built by `parsing_error` for `file` and the line number
`k`, whose message text is `file <file>: <message> at line <k>` (`k` in decimal), exactly when
`rest`, trimmed, has fewer than 3 characters, or does not start with `<`, or does not end with
`>`; the message is `invalid 'include' syntax` in the first case and
`expected '#include <filename>' syntax` in the other two. Otherwise the header name is the text
strictly between the first and the last character of the trimmed `rest`: when that header is
stored and the lines after line `k` are copied lines, `process` returns the output for the first
`k-1` lines followed by `#line 1`, the header text, a newline, `#line k+1` and the remaining
lines. -/
theorem include_line_check (self : GLSLExtension) (disk : Disk) (file p ws rest tail : Str)
    (k : Nat)
    (hp : p = [] ∨ p.getLast? = some '\n')
    (hk : (lines p).length + 1 = k)
    (hfirst : ∀ l ∈ lines p, takesInclude l = false)
    (hws : ∀ c ∈ ws, std.isspace c = true ∧ c ≠ '\n')
    (hrest : '\n' ∉ rest)
    (htail : tail = [] ∨ tail.head? = some '\n')
    (hrange : (lines (p ++ ('#' :: ws ++ "include".toList ++ rest) ++ tail)).length + 1
      < UINT_MOD) :
    ((∃ e m, (self.process disk file
            (p ++ ('#' :: ws ++ "include".toList ++ rest) ++ tail)).result = .error e
          ∧ e = parsing_error file k m
          ∧ e.what = "file ".toList ++ file ++ ": ".toList ++ m ++ " at line ".toList
              ++ (Nat.repr k).toList)
        ↔ ((util.trim rest).length < 3 ∨ (util.trim rest).head? ≠ some '<'
          ∨ (util.trim rest).getLast? ≠ some '>'))
      ∧ ((util.trim rest).length < 3 →
          ∃ e, (self.process disk file
              (p ++ ('#' :: ws ++ "include".toList ++ rest) ++ tail)).result = .error e
            ∧ e.what = "file ".toList ++ file ++ ": invalid \x27include\x27 syntax at line ".toList
                ++ (Nat.repr k).toList)
      ∧ (3 ≤ (util.trim rest).length →
          ((util.trim rest).head? ≠ some '<' ∨ (util.trim rest).getLast? ≠ some '>') →
          ∃ e, (self.process disk file
              (p ++ ('#' :: ws ++ "include".toList ++ rest) ++ tail)).result = .error e
            ∧ e.what = "file ".toList ++ file
                ++ ": expected \x27#include <filename>\x27 syntax at line ".toList
                ++ (Nat.repr k).toList)
      ∧ (¬ ((util.trim rest).length < 3 ∨ (util.trim rest).head? ≠ some '<'
            ∨ (util.trim rest).getLast? ≠ some '>') →
          ∀ text outp,
            self.headers.find (std.substr (util.trim rest) 1 ((util.trim rest).length - 2))
              = some text →
            (∀ x ∈ lines (tail.drop 1), consumed x = false) →
            (self.process disk file p).result = .ok outp →
            (self.process disk file
              (p ++ ('#' :: ws ++ "include".toList ++ rest) ++ tail)).result
              = .ok (outp ++ "#line 1\n".toList ++ text ++ "\n#line ".toList
                  ++ std.to_string (k + 1) ++ "\n".toList ++ tail.drop 1)) := by
  obtain ⟨e, b, hsrc, he, hb, hdrop⟩ : ∃ e b : Str,
      p ++ ('#' :: ws ++ "include".toList ++ rest) ++ tail
        = p ++ ('#' :: ws ++ "include".toList ++ rest ++ e) ++ b
      ∧ (e = [] ∨ e = ['\n']) ∧ (b = [] ∨ e = ['\n']) ∧ tail.drop 1 = b := by
    rcases htail with rfl | ht
    · exact ⟨[], [], by simp, Or.inl rfl, Or.inl rfl, rfl⟩
    · cases tail with
      | nil => simp at ht
      | cons c b =>
        simp only [List.head?_cons, Option.some.injEq] at ht
        subst ht
        exact ⟨['\n'], b, by simp, Or.inr rfl, Or.inr rfl, rfl⟩
  obtain ⟨hl, _, _⟩ := include_form_facts ws rest e hws hrest he
  have hlb : b = [] ∨ ('#' :: ws ++ "include".toList ++ rest ++ e).getLast? = some '\n' := by
    rcases hb with h | h
    · exact Or.inl h
    · right
      rw [h]
      exact List.getLast?_concat _
  rw [hsrc] at hrange ⊢
  rw [lines_split p _ b hp hl hlb] at hrange
  simp only [List.length_append, List.length_cons] at hrange
  obtain ⟨c1, c2, c3⟩ := include_check_core self disk file p ws rest e b k hp hk hfirst hws
    hrest he hb (by omega)
  rw [← malformed_iff, hdrop]
  refine ⟨⟨?_, ?_⟩, ?_, ?_, ?_⟩
  · rintro ⟨err, m, hres, herr, _⟩
    by_contra hne
    rw [herr] at hres
    exact c2 (by simpa using hne) m hres
  · intro hm
    exact ⟨_, _, c1 hm, rfl, parsing_error_what _ _ _⟩
  · intro hlen
    have hm : malformed (util.trim rest) = true := (malformed_iff _).mpr (Or.inl hlen)
    refine ⟨_, c1 hm, ?_⟩
    rw [parsing_error_what, if_pos hlen]
    simp
  · intro hlen hbr
    have hm : malformed (util.trim rest) = true := (malformed_iff _).mpr (Or.inr hbr)
    refine ⟨_, c1 hm, ?_⟩
    rw [parsing_error_what, if_neg (by omega)]
    simp
  · intro hm text outp hfind hbp hpout
    exact c3 (by simpa using hm) text outp hfind hbp hpout

theorem include_line_check_witness :
    (∃ e, (fogContext.process emptyDisk "main.glsl".toList
          ([] ++ ('#' :: [] ++ "include".toList ++ " foo".toList) ++ [])).result = .error e
        ∧ e.what = "file ".toList ++ "main.glsl".toList
            ++ ": expected \x27#include <filename>\x27 syntax at line ".toList
            ++ (Nat.repr 1).toList)
      ∧ (∃ e, (fogContext.process emptyDisk "main.glsl".toList
          ([] ++ ('#' :: [] ++ "include".toList ++ " <>".toList) ++ [])).result = .error e
        ∧ e.what = "file ".toList ++ "main.glsl".toList
            ++ ": invalid \x27include\x27 syntax at line ".toList ++ (Nat.repr 1).toList)
      ∧ (fogContext.process emptyDisk "main.glsl".toList
        ([] ++ ('#' :: [] ++ "include".toList ++ " <fog>".toList) ++ "\nvoid main()".toList)).result
        = .ok ("#version 330\n#line 1\n".toList ++ "#line 1\n".toList
            ++ "float fogFactor;\n".toList ++ "\n#line ".toList ++ std.to_string (1 + 1)
            ++ "\n".toList ++ ("\nvoid main()".toList).drop 1)
      ∧ "file ".toList ++ "main.glsl".toList
            ++ ": expected \x27#include <filename>\x27 syntax at line ".toList
            ++ (Nat.repr 1).toList
          = "file main.glsl: expected \x27#include <filename>\x27 syntax at line 1".toList :=
  ⟨(include_line_check fogContext emptyDisk "main.glsl".toList [] [] " foo".toList [] 1
      (Or.inl rfl) rfl (by decide) (by decide) (by decide) (Or.inl rfl) (by decide)).2.2.1
      (by decide) (by decide),
    (include_line_check fogContext emptyDisk "main.glsl".toList [] [] " <>".toList [] 1
      (Or.inl rfl) rfl (by decide) (by decide) (by decide) (Or.inl rfl) (by decide)).2.1
      (by decide),
    (include_line_check fogContext emptyDisk "main.glsl".toList [] [] " <fog>".toList
      "\nvoid main()".toList 1
      (Or.inl rfl) rfl (by decide) (by decide) (by decide) (Or.inr rfl) (by decide)).2.2.2
      (by decide) "float fogFactor;\n".toList "#version 330\n#line 1\n".toList (by decide)
      (by decide) (by rw [process_eq_fold]; rfl),
    by decide⟩

/-! ## What each path through the loop body tells about the line -/

theorem classify_inv_cached (self : GLSLExtension) (disk : Disk) (l name text : Str)
    (h : classify self disk l = .cached name text) :
    takesInclude l = true ∧ malformed (includeArg l) = false ∧ name = nameOf (includeArg l)
      ∧ self.headers.find name = some text := by
  unfold classify at h
  split at h
  · rename_i hi
    split at h
    · simp at h
    · rename_i h3
      split at h
      · simp at h
      · rename_i h4
        have hm : malformed (includeArg l) = false := by
          unfold malformed
          simp only [Bool.or_eq_false_iff, decide_eq_false_iff_not]
          simp only [not_or, not_not] at h4
          exact ⟨⟨h3, by simp [h4.1]⟩, by simp [h4.2]⟩
        split at h
        · rename_i t hf
          simp only [Kind.cached.injEq] at h
          refine ⟨hi, hm, h.1.symm, ?_⟩
          rw [← h.1, ← h.2]
          exact hf
        · split at h <;> simp at h
  · split at h <;> simp at h

theorem classify_inv_loaded (self : GLSLExtension) (disk : Disk) (l name text : Str)
    (h : classify self disk l = .loaded name text) :
    takesInclude l = true ∧ malformed (includeArg l) = false ∧ name = nameOf (includeArg l)
      ∧ self.headers.find name = none ∧ fetch self.paths disk name = .ok text := by
  unfold classify at h
  split at h
  · rename_i hi
    split at h
    · simp at h
    · rename_i h3
      split at h
      · simp at h
      · rename_i h4
        have hm : malformed (includeArg l) = false := by
          unfold malformed
          simp only [Bool.or_eq_false_iff, decide_eq_false_iff_not]
          simp only [not_or, not_not] at h4
          exact ⟨⟨h3, by simp [h4.1]⟩, by simp [h4.2]⟩
        split at h
        · simp at h
        · rename_i hf
          split at h
          · rename_i t hft
            simp only [Kind.loaded.injEq] at h
            refine ⟨hi, hm, h.1.symm, ?_, ?_⟩
            · rw [← h.1]
              exact hf
            · rw [← h.1, ← h.2]
              exact hft
          · simp at h
  · split at h <;> simp at h

theorem classify_inv_passed (self : GLSLExtension) (disk : Disk) (l : Str)
    (h : classify self disk l = .passed ∨ classify self disk l = .version) :
    takesInclude l = false := by
  by_contra hi
  simp only [Bool.not_eq_false] at hi
  by_cases hm : malformed (includeArg l) = true
  · rw [classify_bad self disk l hi hm] at h
    simp at h
  · simp only [Bool.not_eq_true] at hm
    rcases classify_wellformed self disk l hi hm with ⟨t, hc⟩ | ⟨t, hc⟩ | ⟨e, hc⟩ <;>
      (rw [hc] at h; simp at h)

theorem includeName_of_no_include (l : Str) (h : takesInclude l = false) :
    includeName l = none := by
  unfold includeName
  simp [h]

theorem includeName_of_include (l : Str) (hi : takesInclude l = true)
    (hm : malformed (includeArg l) = false) : includeName l = some (nameOf (includeArg l)) := by
  unfold includeName
  simp [hi, hm]

/-- The state in which a piece of `process` ends. -/
theorem applyKind_done_cases (file l : Str) (st s : Run) (kind : Kind)
    (h : applyKind file l st kind = .done s) :
    (s.self = st.self ∧ s.loads = st.loads
        ∧ (kind = .passed ∨ kind = .version ∨ ∃ name text, kind = .cached name text))
      ∨ (∃ name text, kind = .loaded name text ∧ s.self = st.self.addHeader name text
        ∧ s.loads = st.loads ++ [name]) := by
  cases kind with
  | passed =>
    simp only [applyKind, Exit.done.injEq] at h
    exact Or.inl ⟨by rw [← h], by rw [← h], Or.inl rfl⟩
  | version =>
    simp only [applyKind, Exit.done.injEq] at h
    exact Or.inl ⟨by rw [← h], by rw [← h], Or.inr (Or.inl rfl)⟩
  | bad m => simp [applyKind] at h
  | cached name text =>
    simp only [applyKind, Exit.done.injEq] at h
    exact Or.inl ⟨by rw [← h], by rw [← h], Or.inr (Or.inr ⟨name, text, rfl⟩)⟩
  | loaded name text =>
    simp only [applyKind, Exit.done.injEq] at h
    exact Or.inr ⟨name, text, rfl, by rw [← h], by rw [← h]⟩
  | failed name e => simp [applyKind] at h

/-! ## The header store during a successful run -/

/-- After the lines `ls` have been processed without an exception: the names `loadHeader` was
called with are distinct, were missing before, were read successfully and are stored now;
nothing else in the store has changed; and every header named by an include line is stored. -/
theorem foldLines_store (disk : Disk) (file : Str) (ls : List Str) (st s : Run)
    (hl : ∀ l ∈ ls, IsLine l) (h : foldLines disk file ls st = .done s) :
    ∃ new : List Str,
      s.loads = st.loads ++ new
        ∧ s.self.paths = st.self.paths ∧ s.self.version = st.self.version
        ∧ s.self.defines = st.self.defines
        ∧ new.Nodup
        ∧ (∀ n ∈ new, st.self.headers.find n = none
            ∧ ∃ t, fetch st.self.paths disk n = .ok t ∧ s.self.headers.find n = some t)
        ∧ (∀ n, n ∉ new → s.self.headers.find n = st.self.headers.find n)
        ∧ (∀ l ∈ ls, ∀ n, includeName l = some n → ∃ t, s.self.headers.find n = some t) := by
  induction ls generalizing st with
  | nil =>
    simp only [foldLines, Exit.done.injEq] at h
    subst h
    exact ⟨[], by simp, rfl, rfl, rfl, List.nodup_nil, by simp, fun _ _ => rfl, by simp⟩
  | cons l t ih =>
    simp only [foldLines] at h
    rw [lineStep_eq_applyKind disk file l st (hl l (List.mem_cons_self _ _))] at h
    cases hk : applyKind file l st (classify st.self disk l) with
    | thrown e s1 => simp [hk] at h
    | done s1 =>
      rw [hk] at h
      obtain ⟨new1, i1, i2, i3, i4, i5, i6, i7, i8⟩ :=
        ih s1 (fun x hx => hl x (List.mem_cons_of_mem _ hx)) h
      rcases applyKind_done_cases file l st s1 _ hk with ⟨hs, hlo, hkind⟩ | ⟨name, text, hkind, hs, hlo⟩
      · rw [hs] at i2 i3 i4 i6 i7
        rw [hlo] at i1
        refine ⟨new1, i1, i2, i3, i4, i5, i6, i7, ?_⟩
        intro x hx n hn
        rcases List.mem_cons.mp hx with rfl | hx
        · rcases hkind with hc | hc | ⟨name, text, hc⟩
          · rw [includeName_of_no_include x (classify_inv_passed _ disk x (Or.inl hc))] at hn
            simp at hn
          · rw [includeName_of_no_include x (classify_inv_passed _ disk x (Or.inr hc))] at hn
            simp at hn
          · obtain ⟨c1, c2, c3, c4⟩ := classify_inv_cached _ _ _ _ _ hc
            rw [includeName_of_include x c1 c2] at hn
            simp only [Option.some.injEq] at hn
            rw [← hn, ← c3]
            by_cases hmem : name ∈ new1
            · obtain ⟨_, t2, _, ht2⟩ := i6 name hmem
              exact ⟨t2, ht2⟩
            · exact ⟨text, by rw [i7 name hmem, c4]⟩
        · exact i8 x hx n hn
      · obtain ⟨c1, c2, c3, c4, c5⟩ := classify_inv_loaded _ _ _ _ _ hkind
        have hs1name : s1.self.headers.find name = some text := by
          rw [hs]
          exact find_assign_self _ _ _
        have hs1other : ∀ n, n ≠ name → s1.self.headers.find n = st.self.headers.find n := by
          intro n hn
          rw [hs]
          exact find_assign_other _ _ _ _ hn
        have hpaths : s1.self.paths = st.self.paths := by rw [hs]; rfl
        have hnotin : name ∉ new1 := by
          intro hmem
          have := (i6 name hmem).1
          rw [hs1name] at this
          simp at this
        refine ⟨name :: new1, ?_, ?_, ?_, ?_, ?_, ?_, ?_, ?_⟩
        · rw [i1, hlo]
          simp
        · rw [i2, hpaths]
        · rw [i3, hs]
          rfl
        · rw [i4, hs]
          rfl
        · exact List.nodup_cons.mpr ⟨hnotin, i5⟩
        · intro n hn
          rcases List.mem_cons.mp hn with rfl | hn
          · exact ⟨c4, text, c5, by rw [i7 n hnotin, hs1name]⟩
          · obtain ⟨a1, t2, a2, a3⟩ := i6 n hn
            have hne : n ≠ name := by
              intro heq
              rw [heq, hs1name] at a1
              simp at a1
            exact ⟨by rw [← hs1other n hne]; exact a1, t2, by rw [← hpaths]; exact a2, a3⟩
        · intro n hn
          have hne : n ≠ name := fun heq => hn (by rw [heq]; exact List.mem_cons_self _ _)
          have hn1 : n ∉ new1 := fun hmem => hn (List.mem_cons_of_mem _ hmem)
          rw [i7 n hn1, hs1other n hne]
        · intro x hx n hn
          rcases List.mem_cons.mp hx with rfl | hx
          · rw [includeName_of_include x c1 c2] at hn
            simp only [Option.some.injEq] at hn
            rw [← hn, ← c3]
            exact ⟨text, by rw [i7 name hnotin, hs1name]⟩
          · exact i8 x hx n hn

/-! ## A header that cannot be loaded -/

theorem classify_failed (self : GLSLExtension) (disk : Disk) (l name : Str) (e : Error)
    (hi : takesInclude l = true) (hm : malformed (includeArg l) = false)
    (hname : nameOf (includeArg l) = name) (hf : self.headers.find name = none)
    (hfetch : fetch self.paths disk name = .error e) :
    classify self disk l = .failed name e := by
  unfold malformed at hm
  simp only [Bool.or_eq_false_iff, decide_eq_false_iff_not, not_not, Nat.not_lt] at hm
  obtain ⟨⟨h1, h2⟩, h3⟩ := hm
  unfold classify
  have h1' : ¬ (includeArg l).length < 3 := by omega
  have h4 : ¬ ((includeArg l).head? ≠ some '<' ∨ (includeArg l).getLast? ≠ some '>') := by
    simp [h2, h3]
  simp only [hi, h1', h4, if_true, if_false, hname, hf, hfetch]

theorem loadHeader_error (self : GLSLExtension) (disk : Disk) (name : Str) (e : Error)
    (h : self.loadHeader disk name = .error e) : fetch self.paths disk name = .error e := by
  rw [loadHeader_eq] at h
  cases hf : fetch self.paths disk name with
  | error e0 =>
    rw [hf] at h
    simpa using h
  | ok t =>
    rw [hf] at h
    simp at h

theorem run_append_thrown (self : GLSLExtension) (disk : Disk) (file p q : Str) (e : Error)
    (s : Run) (hp : p = [] ∨ p.getLast? = some '\n')
    (h : self.run disk file p = .thrown e s) : self.run disk file (p ++ q) = .thrown e s := by
  rw [run_eq_foldLines] at h ⊢
  rw [lines_append p q hp, foldLines_append, h]

/-- C9. Let a source have the line `#include <X>` after a text `p` of whole lines, `X` not being
in the header store and `loadHeader(X)` failing with the error `e`. Then `process` fails and
returns no text; when the lines of `p` are processed without an exception (however many they
are), the error is `e`. And `getHeader` fails exactly for the names for which `hasHeader` is
false. -/
theorem load_failure (self : GLSLExtension) (disk : Disk) (file p X tail : Str) (e : Error)
    (hp : p = [] ∨ p.getLast? = some '\n')
    (hX : X ≠ []) (hXnl : '\n' ∉ X)
    (htail : tail = [] ∨ tail.head? = some '\n')
    (habsent : self.hasHeader X = false)
    (hfail : self.loadHeader disk X = .error e) :
    (∃ e', (self.process disk file (p ++ ("#include <".toList ++ X ++ ">".toList) ++ tail)).result
        = .error e')
      ∧ (∀ outp, (self.process disk file p).result = .ok outp →
          (self.process disk file (p ++ ("#include <".toList ++ X ++ ">".toList) ++ tail)).result
            = .error e)
      ∧ (∀ (c : GLSLExtension) (name : Str),
          (∃ err, c.getHeader name = .error err) ↔ c.hasHeader name = false) := by
  obtain ⟨en, b, hsrc, he, hb⟩ : ∃ en b : Str,
      p ++ ("#include <".toList ++ X ++ ">".toList) ++ tail
        = p ++ ('#' :: [] ++ "include".toList ++ (" <".toList ++ X ++ ">".toList) ++ en) ++ b
      ∧ (en = [] ∨ en = ['\n']) ∧ (b = [] ∨ en = ['\n']) := by
    rcases htail with rfl | ht
    · exact ⟨[], [], by simp, Or.inl rfl, Or.inl rfl⟩
    · cases tail with
      | nil => simp at ht
      | cons c b =>
        simp only [List.head?_cons, Option.some.injEq] at ht
        subst ht
        exact ⟨['\n'], b, by simp, Or.inr rfl, Or.inr rfl⟩
  have hrestnl : '\n' ∉ " <".toList ++ X ++ ">".toList := by
    intro hmem
    simp only [List.mem_append] at hmem
    rcases hmem with (h | h) | h
    · revert h
      decide
    · exact hXnl h
    · revert h
      decide
  obtain ⟨hl, hi, harg⟩ := include_form_facts [] (" <".toList ++ X ++ ">".toList) en
    (by simp) hrestnl he
  have hlb : b = [] ∨ ('#' :: [] ++ "include".toList ++ (" <".toList ++ X ++ ">".toList)
      ++ en).getLast? = some '\n' := by
    rcases hb with h | h
    · exact Or.inl h
    · right
      rw [h]
      exact List.getLast?_concat _
  have htrim : util.trim (" <".toList ++ X ++ ">".toList) = '<' :: X ++ ['>'] :=
    trim_include_arg X
  rw [htrim] at harg
  have hfetch := loadHeader_error self disk X e hfail
  have hnone : self.headers.find X = none := by
    unfold GLSLExtension.hasHeader at habsent
    cases hf : self.headers.find X with
    | none => rfl
    | some t => simp [hf] at habsent
  have main : ∀ s, self.run disk file p = .done s →
      (self.process disk file (p ++ ("#include <".toList ++ X ++ ">".toList) ++ tail)).result
        = .error e := by
    intro s hrun
    rw [hsrc, process_result_of_run, run_split self disk file p _ b hp hl hlb, hrun]
    rw [run_eq_foldLines] at hrun
    obtain ⟨new, _, j2, _, _, _, j6, j7, _⟩ :=
      foldLines_store disk file (lines p) _ s (lines_isLine p) hrun
    simp only at j2 j6 j7
    have hsX : s.self.headers.find X = none := by
      by_cases hmem : X ∈ new
      · obtain ⟨_, t, ht, _⟩ := j6 X hmem
        rw [hfetch] at ht
        simp at ht
      · rw [j7 X hmem, hnone]
    have hc := classify_failed s.self disk _ X e hi
      (by rw [harg]; exact malformed_brackets X hX)
      (by rw [harg]; exact nameOf_brackets X) hsX (by rw [j2]; exact hfetch)
    simp only [hc, applyKind]
  refine ⟨?_, ?_, ?_⟩
  · cases hrun : self.run disk file p with
    | done s => exact ⟨e, main s hrun⟩
    | thrown e1 s1 =>
      refine ⟨e1, ?_⟩
      rw [process_result_of_run, List.append_assoc, run_append_thrown self disk file p _ e1 s1 hp hrun]
  · intro outp hout
    rw [process_result_of_run] at hout
    cases hrun : self.run disk file p with
    | done s => exact main s hrun
    | thrown e1 s1 =>
      rw [hrun] at hout
      simp at hout
  · intro c name
    unfold GLSLExtension.getHeader GLSLExtension.hasHeader
    cases c.headers.find name with
    | none => simp
    | some t => simp

theorem load_failure_witness :
    (∃ e', (fogContext.process emptyDisk "main.glsl".toList
        ("#include <fog>\nint x;\n".toList ++ ("#include <".toList ++ "sky".toList ++ ">".toList)
          ++ "\nvoid main()".toList)).result = .error e')
      ∧ (fogContext.process emptyDisk "main.glsl".toList
        ("#include <fog>\nint x;\n".toList ++ ("#include <".toList ++ "sky".toList ++ ">".toList)
          ++ "\nvoid main()".toList)).result = .error (Error.resolver "not found".toList)
      ∧ ((∃ err, fogContext.getHeader "sky".toList = .error err)
        ↔ fogContext.hasHeader "sky".toList = false) :=
  ⟨(load_failure fogContext emptyDisk "main.glsl".toList "#include <fog>\nint x;\n".toList
      "sky".toList "\nvoid main()".toList (Error.resolver "not found".toList)
      (Or.inr (by decide)) (by decide) (by decide) (Or.inr rfl) (by decide) rfl).1,
    (load_failure fogContext emptyDisk "main.glsl".toList "#include <fog>\nint x;\n".toList
      "sky".toList "\nvoid main()".toList (Error.resolver "not found".toList)
      (Or.inr (by decide)) (by decide) (by decide) (Or.inr rfl) (by decide) rfl).2.1
      "#version 330\n#line 1\n#line 1\nfloat fogFactor;\n\n#line 2\nint x;\n".toList
      (by rw [process_eq_fold]; rfl),
    (load_failure fogContext emptyDisk "main.glsl".toList "#include <fog>\nint x;\n".toList
      "sky".toList "\nvoid main()".toList (Error.resolver "not found".toList)
      (Or.inr (by decide)) (by decide) (by decide) (Or.inr rfl) (by decide) rfl).2.2
      fogContext "sky".toList⟩

/-! ## Header caching -/

theorem classify_inv_failed (self : GLSLExtension) (disk : Disk) (l name : Str) (e : Error)
    (h : classify self disk l = .failed name e) :
    takesInclude l = true ∧ malformed (includeArg l) = false ∧ name = nameOf (includeArg l)
      ∧ self.headers.find name = none := by
  unfold classify at h
  split at h
  · rename_i hi
    split at h
    · simp at h
    · rename_i h3
      split at h
      · simp at h
      · rename_i h4
        have hm : malformed (includeArg l) = false := by
          unfold malformed
          simp only [Bool.or_eq_false_iff, decide_eq_false_iff_not]
          simp only [not_or, not_not] at h4
          exact ⟨⟨h3, by simp [h4.1]⟩, by simp [h4.2]⟩
        split at h
        · simp at h
        · rename_i hf
          split at h
          · simp at h
          · simp only [Kind.failed.injEq] at h
            refine ⟨hi, hm, h.1.symm, ?_⟩
            rw [← h.1]
            exact hf
  · split at h <;> simp at h

theorem classify_not_loading (self : GLSLExtension) (disk : Disk) (l : Str)
    (h : ∀ n, includeName l = some n → self.hasHeader n = true) :
    (∀ name text, classify self disk l ≠ .loaded name text)
      ∧ (∀ name e, classify self disk l ≠ .failed name e) := by
  constructor
  · intro name text hc
    obtain ⟨c1, c2, c3, c4⟩ := classify_inv_loaded _ _ _ _ _ hc
    have := h name (by rw [includeName_of_include l c1 c2, c3])
    simp [GLSLExtension.hasHeader, c4.1] at this
  · intro name e hc
    obtain ⟨c1, c2, c3, c4⟩ := classify_inv_failed _ _ _ _ _ hc
    have := h name (by rw [includeName_of_include l c1 c2, c3])
    simp [GLSLExtension.hasHeader, c4] at this

theorem applyKind_not_loading (file l : Str) (st : Run) (kind : Kind)
    (h1 : ∀ name text, kind ≠ .loaded name text) (h2 : ∀ name e, kind ≠ .failed name e) :
    (∀ s, applyKind file l st kind = .done s → s.self = st.self ∧ s.loads = st.loads)
      ∧ (∀ e s, applyKind file l st kind = .thrown e s → s.self = st.self ∧ s.loads = st.loads) := by
  cases kind with
  | passed => simp only [applyKind, Exit.done.injEq]; exact ⟨fun s h => by rw [← h]; exact ⟨rfl, rfl⟩, fun e s h => by simp at h⟩
  | version => simp only [applyKind, Exit.done.injEq]; exact ⟨fun s h => by rw [← h]; exact ⟨rfl, rfl⟩, fun e s h => by simp at h⟩
  | bad m => simp only [applyKind, Exit.thrown.injEq]; exact ⟨fun s h => by simp at h, fun e s h => by rw [← h.2]; exact ⟨rfl, rfl⟩⟩
  | cached name text => simp only [applyKind, Exit.done.injEq]; exact ⟨fun s h => by rw [← h]; exact ⟨rfl, rfl⟩, fun e s h => by simp at h⟩
  | loaded name text => exact absurd rfl (h1 name text)
  | failed name e => exact absurd rfl (h2 name e)

/-- When every header named by an include line is stored, the loop neither calls `loadHeader`
nor changes the object, however it ends. -/
theorem foldLines_all_cached (disk : Disk) (file : Str) (ls : List Str) (st : Run)
    (hl : ∀ l ∈ ls, IsLine l)
    (hc : ∀ l ∈ ls, ∀ n, includeName l = some n → st.self.hasHeader n = true) :
    (∀ s, foldLines disk file ls st = .done s → s.self = st.self ∧ s.loads = st.loads)
      ∧ (∀ e s, foldLines disk file ls st = .thrown e s
          → s.self = st.self ∧ s.loads = st.loads) := by
  induction ls generalizing st with
  | nil =>
    simp only [foldLines, Exit.done.injEq]
    exact ⟨fun s h => by rw [← h]; exact ⟨rfl, rfl⟩, fun e s h => by simp at h⟩
  | cons l t ih =>
    simp only [foldLines]
    rw [lineStep_eq_applyKind disk file l st (hl l (List.mem_cons_self _ _))]
    obtain ⟨n1, n2⟩ := classify_not_loading st.self disk l (hc l (List.mem_cons_self _ _))
    obtain ⟨a1, a2⟩ := applyKind_not_loading file l st _ n1 n2
    cases hk : applyKind file l st (classify st.self disk l) with
    | thrown e s1 =>
      simp only
      refine ⟨fun s h => by simp at h, fun e2 s h => ?_⟩
      simp only [Exit.thrown.injEq] at h
      rw [← h.2]
      exact a2 e s1 hk
    | done s1 =>
      simp only
      obtain ⟨b1, b2⟩ := a1 s1 hk
      obtain ⟨i1, i2⟩ := ih s1 (fun x hx => hl x (List.mem_cons_of_mem _ hx))
        (fun x hx n hn => by rw [b1]; exact hc x (List.mem_cons_of_mem _ hx) n hn)
      refine ⟨fun s h => ?_, fun e s h => ?_⟩
      · obtain ⟨c1, c2⟩ := i1 s h
        exact ⟨c1.trans b1, c2.trans b2⟩
      · obtain ⟨c1, c2⟩ := i2 e s h
        exact ⟨c1.trans b1, c2.trans b2⟩

theorem classify_congr (self other : GLSLExtension) (disk : Disk) (l : Str)
    (h : takesInclude l = false) : classify self disk l = classify other disk l := by
  unfold classify
  simp only [h, Bool.false_eq_true, if_false]

/-- A successful run can be repeated on any store that holds what the store holds at its end:
the second run writes the same stream and calls `loadHeader` for nothing. -/
theorem foldLines_rerun (disk : Disk) (file : Str) (ls : List Str) (st s : Run)
    (hl : ∀ l ∈ ls, IsLine l) (h : foldLines disk file ls st = .done s)
    (store : StrMap) (loads : List Str)
    (hext : ∀ n t, s.self.headers.find n = some t → store.find n = some t) :
    foldLines disk file ls
        { st with self := { st.self with headers := store }, loads := loads }
      = .done { s with self := { s.self with headers := store }, loads := loads } := by
  induction ls generalizing st with
  | nil =>
    simp only [foldLines, Exit.done.injEq] at h ⊢
    rw [h]
  | cons l t ih =>
    simp only [foldLines] at h ⊢
    rw [lineStep_eq_applyKind disk file l st (hl l (List.mem_cons_self _ _))] at h
    rw [lineStep_eq_applyKind disk file l _ (hl l (List.mem_cons_self _ _))]
    cases hk : applyKind file l st (classify st.self disk l) with
    | thrown e s1 => simp [hk] at h
    | done s1 =>
      rw [hk] at h
      simp only at h
      have hrest := ih s1 (fun x hx => hl x (List.mem_cons_of_mem _ hx)) h
      obtain ⟨new, _, _, _, _, _, j6, j7, _⟩ :=
        foldLines_store disk file t s1 s (fun x hx => hl x (List.mem_cons_of_mem _ hx)) h
      have hmono : ∀ n tx, s1.self.headers.find n = some tx → store.find n = some tx := by
        intro n tx hn
        apply hext
        by_cases hmem : n ∈ new
        · rw [(j6 n hmem).1] at hn
          simp at hn
        · rw [j7 n hmem]
          exact hn
      have key : applyKind file l
          { st with self := { st.self with headers := store }, loads := loads }
          (classify { st.self with headers := store } disk l)
          = .done { s1 with self := { s1.self with headers := store }, loads := loads } := by
        cases hc : classify st.self disk l with
        | passed =>
          rw [← classify_congr st.self _ disk l (classify_inv_passed _ disk l (Or.inl hc)), hc]
          rw [hc] at hk
          simp only [applyKind, Exit.done.injEq] at hk ⊢
          rw [← hk]
        | version =>
          rw [← classify_congr st.self _ disk l (classify_inv_passed _ disk l (Or.inr hc)), hc]
          rw [hc] at hk
          simp only [applyKind, Exit.done.injEq] at hk ⊢
          rw [← hk]
        | bad m =>
          rw [hc] at hk
          simp [applyKind] at hk
        | failed name e =>
          rw [hc] at hk
          simp [applyKind] at hk
        | cached name text =>
          obtain ⟨c1, c2, c3, c4⟩ := classify_inv_cached _ _ _ _ _ hc
          rw [hc] at hk
          simp only [applyKind, Exit.done.injEq] at hk
          have hs1 : s1.self.headers.find name = some text := by
            rw [← hk]
            exact c4
          rw [classify_cached { st.self with headers := store } disk l name text c1 c2 c3.symm
            (hmono name text hs1)]
          simp only [applyKind, Exit.done.injEq]
          rw [← hk]
        | loaded name text =>
          obtain ⟨c1, c2, c3, c4, c5⟩ := classify_inv_loaded _ _ _ _ _ hc
          rw [hc] at hk
          simp only [applyKind, Exit.done.injEq] at hk
          have hs1 : s1.self.headers.find name = some text := by
            rw [← hk]
            exact find_assign_self _ _ _
          rw [classify_cached { st.self with headers := store } disk l name text c1 c2 c3.symm
            (hmono name text hs1)]
          simp only [applyKind, Exit.done.injEq]
          rw [← hk]
          rfl
      rw [key]
      exact hrest

theorem process_loads_self (self : GLSLExtension) (disk : Disk) (file source : Str) :
    (∀ s, self.run disk file source = .done s →
        (self.process disk file source).loads = s.loads
          ∧ (self.process disk file source).self = s.self
          ∧ (self.process disk file source).result = .ok (str s.ss))
      ∧ (∀ e s, self.run disk file source = .thrown e s →
        (self.process disk file source).loads = s.loads
          ∧ (self.process disk file source).self = s.self
          ∧ (self.process disk file source).result = .error e) := by
  unfold GLSLExtension.process
  constructor
  · intro s h
    rw [h]
    exact ⟨rfl, rfl, rfl⟩
  · intro e s h
    rw [h]
    exact ⟨rfl, rfl, rfl⟩

theorem countP_eq_one_of_nodup (l : List Str) (x : Str) (hn : l.Nodup) (hx : x ∈ l) :
    l.countP (fun n => decide (n = x)) = 1 := by
  induction l with
  | nil => simp at hx
  | cons a t ih =>
    rw [List.nodup_cons] at hn
    by_cases hax : a = x
    · subst hax
      rw [List.countP_cons_of_pos _ _ (by simp)]
      have : t.countP (fun n => decide (n = a)) = 0 := by
        rw [List.countP_eq_zero]
        intro b hb
        simp only [decide_eq_true_eq]
        intro hba
        exact hn.1 (hba ▸ hb)
      rw [this]
    · rw [List.countP_cons_of_neg _ _ (by simp [hax])]
      apply ih hn.2
      rcases List.mem_cons.mp hx with h | h
      · exact absurd h.symm hax
      · exact h

/-- C7. Header caching. When every header named by an include line of the source is in the
header store, `process` does not call `loadHeader` and leaves the object, hence the store, as it
was. When a name `X` is not in the store and the source has an include line that names `X`, a
successful `process` calls `loadHeader(X)` exactly once, `hasHeader(X)` holds afterwards, and
processing the same source again calls `loadHeader` for nothing and returns the same text. -/
theorem header_caching (self : GLSLExtension) (disk : Disk) (file source : Str) :
    ((∀ l ∈ lines source, ∀ n, includeName l = some n → self.hasHeader n = true) →
        (self.process disk file source).loads = []
          ∧ (self.process disk file source).self = self)
      ∧ (∀ X out, self.hasHeader X = false →
          (∃ l ∈ lines source, includeName l = some X) →
          (self.process disk file source).result = .ok out →
          (self.process disk file source).loads.countP (fun n => decide (n = X)) = 1
            ∧ (self.process disk file source).self.hasHeader X = true
            ∧ ((self.process disk file source).self.process disk file source).loads = []
            ∧ ((self.process disk file source).self.process disk file source).result
              = .ok out) := by
  obtain ⟨pd, pt⟩ := process_loads_self self disk file source
  constructor
  · intro hc
    obtain ⟨a1, a2⟩ := foldLines_all_cached disk file (lines source)
      { self := self
        ss := [.version self.version]
          ++ self.defines.entries.map (fun entry => Piece.define entry.1 entry.2)
          ++ [.marker 1]
        cerr := []
        loads := []
        linenum := 1 } (lines_isLine source) hc
    cases hrun : self.run disk file source with
    | done s =>
      obtain ⟨p1, p2, _⟩ := pd s hrun
      rw [run_eq_foldLines] at hrun
      obtain ⟨b1, b2⟩ := a1 s hrun
      exact ⟨p1.trans b2, p2.trans b1⟩
    | thrown e s =>
      obtain ⟨p1, p2, _⟩ := pt e s hrun
      rw [run_eq_foldLines] at hrun
      obtain ⟨b1, b2⟩ := a2 e s hrun
      exact ⟨p1.trans b2, p2.trans b1⟩
  · intro X out habsent ⟨l, hl, hname⟩ hok
    cases hrun : self.run disk file source with
    | thrown e s =>
      rw [(pt e s hrun).2.2] at hok
      simp at hok
    | done s =>
      obtain ⟨p1, p2, p3⟩ := pd s hrun
      rw [p3] at hok
      simp only [Except.ok.injEq] at hok
      have hfold := hrun
      rw [run_eq_foldLines] at hfold
      obtain ⟨new, j1, j2, j3, j4, j5, j6, j7, j8⟩ :=
        foldLines_store disk file (lines source) _ s (lines_isLine source) hfold
      simp only [List.nil_append] at j1 j2 j3 j4 j6 j7
      obtain ⟨t, ht⟩ := j8 l hl X hname
      have hnone : self.headers.find X = none := by
        unfold GLSLExtension.hasHeader at habsent
        cases hf : self.headers.find X with
        | none => rfl
        | some t => simp [hf] at habsent
      have hmem : X ∈ new := by
        by_contra hnot
        rw [j7 X hnot, hnone] at ht
        simp at ht
      have hself : s.self = { self with headers := s.self.headers } := by
        cases hs : s.self with
        | mk h d v p =>
          rw [hs] at j2 j3 j4
          simp only at j2 j3 j4
          rw [j2, j3, j4]
      have hrerun := foldLines_rerun disk file (lines source) _ s (lines_isLine source) hfold
        s.self.headers [] (fun n t h => h)
      simp only at hrerun
      have hrun2 : s.self.run disk file source
          = .done { s with self := { s.self with headers := s.self.headers }, loads := [] } := by
        rw [run_eq_foldLines, ← hrerun]
        congr 1
        rw [j3, j4]
        congr 1
      obtain ⟨q1, q2, q3⟩ := (process_loads_self s.self disk file source).1 _ hrun2
      rw [p1, p2, j1]
      refine ⟨countP_eq_one_of_nodup new X j5 hmem, ?_, q1, ?_⟩
      · simp [GLSLExtension.hasHeader, ht]
      · rw [q3, hok]

theorem header_caching_witness :
    ((fogContext.process emptyDisk "main.glsl".toList "#include <fog>\nint x;".toList).loads = []
        ∧ (fogContext.process emptyDisk "main.glsl".toList "#include <fog>\nint x;".toList).self
          = fogContext)
      ∧ ((skyContext.process skyDisk "main.glsl".toList
            "#include <sky>\n#include <fog>\n#include <sky>\n".toList).loads.countP
              (fun n => decide (n = "sky".toList)) = 1
        ∧ (skyContext.process skyDisk "main.glsl".toList
            "#include <sky>\n#include <fog>\n#include <sky>\n".toList).self.hasHeader
              "sky".toList = true
        ∧ ((skyContext.process skyDisk "main.glsl".toList
            "#include <sky>\n#include <fog>\n#include <sky>\n".toList).self.process skyDisk
              "main.glsl".toList "#include <sky>\n#include <fog>\n#include <sky>\n".toList).loads
            = []
        ∧ ((skyContext.process skyDisk "main.glsl".toList
            "#include <sky>\n#include <fog>\n#include <sky>\n".toList).self.process skyDisk
              "main.glsl".toList "#include <sky>\n#include <fog>\n#include <sky>\n".toList).result
            = .ok ("#version 330\n#line 1\n#line 1\nvec3 sky;\n\n#line 2\n".toList
                ++ "#line 1\nfloat fogFactor;\n\n#line 3\n#line 1\nvec3 sky;\n\n#line 4\n".toList)) :=
  ⟨(header_caching fogContext emptyDisk "main.glsl".toList "#include <fog>\nint x;".toList).1
      (by decide),
    (header_caching skyContext skyDisk "main.glsl".toList
      "#include <sky>\n#include <fog>\n#include <sky>\n".toList).2 "sky".toList _ (by decide)
      ⟨"#include <sky>\n".toList, by decide, by decide⟩ (by rw [process_eq_fold]; rfl)⟩

/-! ## Line numbers -/

theorem downstream_append (cur : Option Nat) (a b : List Piece) :
    downstream cur (a ++ b) = downstream (downstream cur a) b := by
  induction a generalizing cur with
  | nil => rfl
  | cons p t ih =>
    rw [List.cons_append]
    simp only [downstream]
    exact ih _

theorem passedAt_append (cur : Option Nat) (a b : List Piece) :
    passedAt cur (a ++ b) = passedAt cur a ++ passedAt (downstream cur a) b := by
  induction a generalizing cur with
  | nil => rfl
  | cons p t ih =>
    rw [List.cons_append]
    cases p <;> simp only [passedAt, downstream, ih, List.cons_append]

theorem restores_append (a b : List Piece) : restores (a ++ b) = restores a ++ restores b := by
  induction a with
  | nil => rfl
  | cons p t ih =>
    rw [List.cons_append]
    cases p <;> simp only [restores, ih, List.cons_append]

theorem lines_wholeLines (s : Str) : wholeLines (lines s) := by
  induction s with
  | nil => simp [lines, wholeLines]
  | cons c cs ih =>
    by_cases hc : c = '\n'
    · subst hc
      simp only [lines, if_true]
      cases hlc : lines cs with
      | nil => simp [wholeLines]
      | cons l0 ls =>
        rw [hlc] at ih
        exact ⟨by simp, ih⟩
    · rw [lines_cons_ne c cs hc]
      cases hlc : lines cs with
      | nil => simp [wholeLines]
      | cons l0 ls =>
        rw [hlc] at ih
        simp only
        cases ls with
        | nil => simp [wholeLines]
        | cons l1 ls1 =>
          refine ⟨?_, ih.2⟩
          obtain ⟨body, hb⟩ := List.getLast?_eq_some_iff.mp ih.1
          rw [hb, ← List.cons_append]
          exact List.getLast?_concat _

theorem newlines_line (l : Str) (hl : IsLine l) (hlast : l.getLast? = some '\n') :
    newlines l = 1 := by
  obtain ⟨body, rfl⟩ : ∃ body, l = body ++ ['\n'] := List.getLast?_eq_some_iff.mp hlast
  have hnot : '\n' ∉ body := by
    intro hmem
    have h1 := hl.2
    have h2 : (body ++ ['\n']).indexOf '\n' = body.indexOf '\n' := List.indexOf_append_of_mem hmem
    have h3 : body.indexOf '\n' < body.length := List.indexOf_lt_length.mpr hmem
    rw [h2] at h1
    simp only [List.length_append, List.length_singleton] at h1
    omega
  unfold newlines
  rw [List.countP_append]
  have : body.countP (fun c => decide (c = '\n')) = 0 := by
    rw [List.countP_eq_zero]
    intro c hc
    simp only [decide_eq_true_eq]
    intro h
    exact hnot (h ▸ hc)
  rw [this]
  rfl

theorem consumed_of_passed (self : GLSLExtension) (disk : Disk) (l : Str)
    (h : classify self disk l = .passed) : consumed l = false := by
  have hi := classify_inv_passed self disk l (Or.inl h)
  by_contra hc
  simp only [Bool.not_eq_false] at hc
  unfold consumed at hc
  rw [hi, Bool.false_or] at hc
  rw [classify_version self disk l hc] at h
  simp at h

theorem consumed_of_version (self : GLSLExtension) (disk : Disk) (l : Str)
    (h : classify self disk l = .version) : consumed l = true := by
  by_contra hc
  simp only [Bool.not_eq_true] at hc
  rw [classify_passed self disk l hc] at h
  simp at h

theorem consumed_of_include (l : Str) (h : takesInclude l = true) : consumed l = true := by
  unfold consumed
  rw [h]
  rfl

/-- One line of the source and the line number the compiler is at: a copied line is written where
the compiler is at the number of the line, a directive is followed by the marker of the next
number, and after the line the compiler is at the next number. -/
theorem step_aligned (disk : Disk) (file l : Str) (st s1 : Run) (i : Nat)
    (hl : IsLine l) (hln : st.linenum = i) (hi : i + 1 < UINT_MOD)
    (hk : applyKind file l st (classify st.self disk l) = .done s1) :
    ∃ added, s1.ss = st.ss ++ added
      ∧ restores added = directiveMarkers [(i, l)]
      ∧ passedAt (some i) added = copiedLines [(i, l)]
      ∧ (l.getLast? = some '\n' → downstream (some i) added = some (i + 1))
      ∧ s1.linenum = i + 1 := by
  have hmod : (st.linenum + 1) % UINT_MOD = i + 1 := by
    rw [hln]
    exact Nat.mod_eq_of_lt hi
  cases hc : classify st.self disk l with
  | passed =>
    rw [hc] at hk
    simp only [applyKind, Exit.done.injEq, hmod] at hk
    have hcons := consumed_of_passed _ _ _ hc
    refine ⟨[.passed l], by rw [← hk], ?_, ?_, ?_, by rw [← hk]⟩
    · simp [restores, directiveMarkers, hcons]
    · simp [passedAt, copiedLines, hcons]
    · intro hlast
      simp [downstream, Piece.after, Piece.text, newlines_line l hl hlast]
  | version =>
    rw [hc] at hk
    simp only [applyKind, Exit.done.injEq, hmod] at hk
    have hcons := consumed_of_version _ _ _ hc
    refine ⟨[.restore (i + 1)], by rw [← hk], ?_, ?_, ?_, by rw [← hk]⟩
    · simp [restores, directiveMarkers, hcons]
    · simp [passedAt, copiedLines, hcons]
    · intro _
      simp [downstream, Piece.after]
  | bad m =>
    rw [hc] at hk
    simp [applyKind] at hk
  | failed name e =>
    rw [hc] at hk
    simp [applyKind] at hk
  | cached name text =>
    rw [hc] at hk
    simp only [applyKind, Exit.done.injEq, hmod] at hk
    have hcons := consumed_of_include l (classify_inv_cached _ _ _ _ _ hc).1
    refine ⟨[.marker 1, .header text, .restore (i + 1)], by rw [← hk], ?_, ?_, ?_, by rw [← hk]⟩
    · simp [restores, directiveMarkers, hcons]
    · simp [passedAt, copiedLines, hcons]
    · intro _
      simp [downstream, Piece.after]
  | loaded name text =>
    rw [hc] at hk
    simp only [applyKind, Exit.done.injEq, hmod] at hk
    have hcons := consumed_of_include l (classify_inv_loaded _ _ _ _ _ hc).1
    refine ⟨[.marker 1, .header text, .restore (i + 1)], by rw [← hk], ?_, ?_, ?_, by rw [← hk]⟩
    · simp [restores, directiveMarkers, hcons]
    · simp [passedAt, copiedLines, hcons]
    · intro _
      simp [downstream, Piece.after]

theorem directiveMarkers_cons (i : Nat) (l : Str) (rest : List (Nat × Str)) :
    directiveMarkers ((i, l) :: rest) = directiveMarkers [(i, l)] ++ directiveMarkers rest := by
  simp only [directiveMarkers]
  split <;> simp

theorem copiedLines_cons (i : Nat) (l : Str) (rest : List (Nat × Str)) :
    copiedLines ((i, l) :: rest) = copiedLines [(i, l)] ++ copiedLines rest := by
  simp only [copiedLines]
  split <;> simp

theorem foldLines_aligned (disk : Disk) (file : Str) (ls : List Str) (st s : Run) (i : Nat)
    (hl : ∀ l ∈ ls, IsLine l) (hw : wholeLines ls)
    (hcur : downstream none st.ss = some i) (hln : st.linenum = i)
    (hr : i + ls.length < UINT_MOD)
    (h : foldLines disk file ls st = .done s) :
    restores s.ss = restores st.ss ++ directiveMarkers (numbered i ls)
      ∧ passedAt none s.ss = passedAt none st.ss ++ copiedLines (numbered i ls) := by
  induction ls generalizing st i with
  | nil =>
    simp only [foldLines, Exit.done.injEq] at h
    subst h
    simp [numbered, directiveMarkers, copiedLines]
  | cons l t ih =>
    simp only [foldLines] at h
    rw [lineStep_eq_applyKind disk file l st (hl l (List.mem_cons_self _ _))] at h
    simp only [List.length_cons] at hr
    cases hk : applyKind file l st (classify st.self disk l) with
    | thrown e s1 => simp [hk] at h
    | done s1 =>
      rw [hk] at h
      simp only at h
      obtain ⟨added, a1, a2, a3, a4, a5⟩ := step_aligned disk file l st s1 i
        (hl l (List.mem_cons_self _ _)) hln (by omega) hk
      simp only [numbered]
      rw [directiveMarkers_cons, copiedLines_cons]
      cases t with
      | nil =>
        simp only [foldLines, Exit.done.injEq] at h
        subst h
        rw [a1, restores_append, passedAt_append, hcur, a2, a3]
        simp [numbered, directiveMarkers, copiedLines]
      | cons l2 t2 =>
        have hlast : l.getLast? = some '\n' := hw.1
        obtain ⟨r1, r2⟩ := ih s1 (i + 1) (fun x hx => hl x (List.mem_cons_of_mem _ hx)) hw.2
          (by rw [a1, downstream_append, hcur, a4 hlast]) a5
          (by simp only [List.length_cons] at hr ⊢; omega) h
        rw [r1, r2, a1, restores_append, passedAt_append, hcur, a2, a3]
        simp

theorem restores_defines (es : List (Str × Str)) :
    restores (es.map (fun entry => Piece.define entry.1 entry.2)) = [] := by
  induction es with
  | nil => rfl
  | cons e t ih => simp only [List.map_cons, restores, ih]

theorem passedAt_defines (cur : Option Nat) (es : List (Str × Str)) :
    passedAt cur (es.map (fun entry => Piece.define entry.1 entry.2)) = [] := by
  induction es generalizing cur with
  | nil => rfl
  | cons e t ih => simp only [List.map_cons, passedAt, ih]

/-- C10. Line-number alignment, for a source of fewer than `2^32 - 1` lines on which `process`
ends without an exception, `s.ss` being the writes it made and the returned text their
concatenation. (1) The markers written after the directive lines are, in order, `#line k+1` for
each directive line `k` of the source. (2) The copied lines of the output are, in order, the
lines of the source that are not directives, and each stands where the compiler is at the
number the line has in the source: the value of the last marker written by `process` before it
plus the number of newlines between that marker and the line. -/
theorem line_numbers_aligned (self : GLSLExtension) (disk : Disk) (file source : Str) (s : Run)
    (hrange : (lines source).length + 1 < UINT_MOD)
    (hrun : self.run disk file source = .done s) :
    (self.process disk file source).result = .ok (str s.ss)
      ∧ restores s.ss = directiveMarkers (numbered 1 (lines source))
      ∧ passedAt none s.ss = copiedLines (numbered 1 (lines source)) := by
  refine ⟨((process_loads_self self disk file source).1 s hrun).2.2, ?_⟩
  rw [run_eq_foldLines] at hrun
  have h0 : downstream none ([Piece.version self.version]
      ++ self.defines.entries.map (fun entry => Piece.define entry.1 entry.2)
      ++ [Piece.marker 1]) = some 1 := by
    rw [downstream_append]
    rfl
  obtain ⟨r1, r2⟩ := foldLines_aligned disk file (lines source) _ s 1 (lines_isLine source)
    (lines_wholeLines source) h0 rfl (by omega) hrun
  have e1 : restores ([Piece.version self.version]
      ++ self.defines.entries.map (fun entry => Piece.define entry.1 entry.2)
      ++ [Piece.marker 1]) = [] := by
    rw [restores_append, restores_append, restores_defines]
    rfl
  have e2 : passedAt none ([Piece.version self.version]
      ++ self.defines.entries.map (fun entry => Piece.define entry.1 entry.2)
      ++ [Piece.marker 1]) = [] := by
    rw [passedAt_append, passedAt_append, passedAt_defines]
    rfl
  dsimp only at r1 r2
  rw [e1] at r1
  rw [e2] at r2
  exact ⟨r1, r2⟩

theorem line_numbers_aligned_witness :
    (lines "int a;\n#include <fog>\n#version 1\nvoid main()".toList).length + 1 < UINT_MOD
      ∧ ∃ s, fogContext.run emptyDisk "main.glsl".toList
            "int a;\n#include <fog>\n#version 1\nvoid main()".toList = .done s
        ∧ ((fogContext.process emptyDisk "main.glsl".toList
              "int a;\n#include <fog>\n#version 1\nvoid main()".toList).result = .ok (str s.ss)
          ∧ restores s.ss = directiveMarkers (numbered 1
              (lines "int a;\n#include <fog>\n#version 1\nvoid main()".toList))
          ∧ passedAt none s.ss = copiedLines (numbered 1
              (lines "int a;\n#include <fog>\n#version 1\nvoid main()".toList)))
        ∧ directiveMarkers (numbered 1
            (lines "int a;\n#include <fog>\n#version 1\nvoid main()".toList)) = [3, 4]
        ∧ copiedLines (numbered 1
            (lines "int a;\n#include <fog>\n#version 1\nvoid main()".toList))
          = [(some 1, "int a;\n".toList), (some 4, "void main()".toList)] := by
  have hrun : ∃ s, fogContext.run emptyDisk "main.glsl".toList
      "int a;\n#include <fog>\n#version 1\nvoid main()".toList = .done s := by
    rw [run_eq_foldLines]
    exact ⟨_, rfl⟩
  obtain ⟨s, hs⟩ := hrun
  exact ⟨by decide, s, hs,
    line_numbers_aligned fogContext emptyDisk "main.glsl".toList
      "int a;\n#include <fog>\n#version 1\nvoid main()".toList s (by decide) hs,
    by decide, by decide⟩
